import Mathlib

/-!
# md2roff: the roff renderer of `hub`

A shallow embedding of `md2roff/renderer.go` (the escaping helpers, the roff
visitor `RenderNode`, the heading formatter `renderHeading`, `textContent` and
`sanitizeInput`) together with the two library facilities the code relies on:
Go's `regexp` search/replace on the four patterns of the file, and
blackfriday's `Node.Walk`.

A byte is a natural number; Go's bytes are the numbers below 256.  No
definition below depends on that bound.
-/

namespace Md2roff

/-- A byte of a Go `[]byte` or `string`. -/
abbrev Byte := Nat

/-- The bytes of an ASCII string literal. -/
def bytes (s : String) : List Byte := s.toList.map Char.toNat

/-! ## Regular expressions (Go `regexp`, leftmost-first semantics) -/

/-- A single-character item of a pattern. -/
inductive Atom where
  /-- A literal character. -/
  | byte (c : Byte)
  /-- A bracket class, as a list of inclusive ranges. -/
  | cls (ranges : List (Byte × Byte))
  /-- The dot: any character except newline. -/
  | notNL

/-- Does the atom accept the byte?  -/
def Atom.test : Atom → Byte → Bool
  | .byte c, x => x == c
  | .cls ranges, x => ranges.any fun r => decide (r.1 ≤ x) && decide (x ≤ r.2)
  | .notNL, x => x != 10

/-- Modelled from the spec: Go's `regexp` package is a library, not part of
the repository.  This is the fragment of its syntax that the four patterns of
`renderer.go` use: single characters, greedy `*` and `+` on a single
character, concatenation and capture groups. -/
inductive Re where
  | one (a : Atom)
  | star (a : Atom)
  | plus (a : Atom)
  | cat (r₁ r₂ : Re)
  | group (r : Re)

/-- One way of matching a pattern at the start of an input: the bytes
consumed, the bytes left, and the text of the capture groups in the order of
their opening parentheses. -/
structure Match where
  matched : List Byte
  rest : List Byte
  caps : List (List Byte)
deriving DecidableEq, Repr

/-- All ways for greedy `a*` to match at the start of the input, the longest
first (the order in which a backtracking search tries them). -/
def starMatches (a : Atom) : List Byte → List Match
  | [] => [⟨[], [], []⟩]
  | x :: t =>
    if a.test x then
      (starMatches a t).map (fun m => ⟨x :: m.matched, m.rest, []⟩) ++ [⟨[], x :: t, []⟩]
    else [⟨[], x :: t, []⟩]

/-- All ways for the pattern to match at the start of the input, in the
priority order of Go's leftmost-first (Perl-like) semantics: the head of the
list is the match `regexp` reports at this position. -/
def Re.matches : Re → List Byte → List Match
  | .one a, s =>
    match s with
    | [] => []
    | x :: t => if a.test x then [⟨[x], t, []⟩] else []
  | .star a, s => starMatches a s
  | .plus a, s =>
    match s with
    | [] => []
    | x :: t =>
      if a.test x then (starMatches a t).map (fun m => ⟨x :: m.matched, m.rest, []⟩) else []
  | .cat r₁ r₂, s =>
    (r₁.matches s).flatMap fun m₁ =>
      (r₂.matches m₁.rest).map fun m₂ =>
        ⟨m₁.matched ++ m₂.matched, m₂.rest, m₁.caps ++ m₂.caps⟩
  | .group r, s => (r.matches s).map fun m => ⟨m.matched, m.rest, m.matched :: m.caps⟩

/-- The match reported at the start of the input, if the pattern matches there. -/
def Re.matchAt (re : Re) (s : List Byte) : Option Match := (re.matches s).head?

/-- The leftmost match of an unanchored search: the bytes skipped before the
match, and the match. -/
def Re.find (re : Re) : List Byte → Option (List Byte × Match)
  | [] => (re.matchAt []).map fun m => ([], m)
  | x :: t =>
    match re.matchAt (x :: t) with
    | some m => some ([], m)
    | none => (re.find t).map fun pm => (x :: pm.1, pm.2)

/-- Modelled from the spec: Go's `Regexp.ReplaceAllFunc` (library code).  The
scan looks for the leftmost match from the current position, copies the bytes
before it, appends `repl` of the matched bytes and resumes after the match.
`afterMatch` records that the previous match was non-empty and ended exactly
here: Go inserts no replacement for an empty match in that position.  After an
empty match Go steps over one character (one byte in this model) and copies
it.  The fuel bounds the number of matches. -/
def replaceAllFuncAux (re : Re) (repl : List Byte → List Byte) :
    Nat → Bool → List Byte → List Byte
  | 0, _, s => s
  | fuel + 1, afterMatch, s =>
    match re.find s with
    | none => s
    | some (pre, m) =>
      match m.matched with
      | _ :: _ => pre ++ repl m.matched ++ replaceAllFuncAux re repl fuel true m.rest
      | [] =>
        let ins := if afterMatch && pre.isEmpty then [] else repl []
        match m.rest with
        | [] => pre ++ ins
        | x :: t => pre ++ ins ++ x :: replaceAllFuncAux re repl fuel false t

/-- Go's `re.ReplaceAllFunc(src, repl)`: every match consumes at least one
byte of the scan, so `src.length + 1` rounds suffice. -/
def replaceAllFunc (re : Re) (src : List Byte) (repl : List Byte → List Byte) : List Byte :=
  replaceAllFuncAux re repl (src.length + 1) false src

/-- Go's `re.FindAllSubmatch(src, 1)`: at most the leftmost match, as the
list of the whole match followed by its capture groups; `none` is Go's `nil`. -/
def findAllSubmatch1 (re : Re) (src : List Byte) : Option (List (List Byte)) :=
  (re.find src).map fun pm => pm.2.matched :: pm.2.caps

/-! ## The package-level values of `renderer.go` -/

/-- The class `[A-Za-z]`. -/
def clsAlpha : Atom := .cls [(65, 90), (97, 122)]

/-- The class `[A-Za-z0-9_-]`. -/
def clsName : Atom := .cls [(65, 90), (97, 122), (48, 57), (95, 95), (45, 45)]

/-- The class `\d`, which Go reads as `[0-9]`. -/
def clsDigit : Atom := .cls [(48, 57)]

/-- Source: `backslash = []byte{'\\'}`. -/
def backslash : List Byte := [92]

/-- Source: `htmlEscape = regexp.MustCompile("<([A-Za-z][A-Za-z0-9_-]*)>")`. -/
def htmlEscape : Re :=
  .cat (.one (.byte 60)) (.cat (.group (.cat (.one clsAlpha) (.star clsName))) (.one (.byte 62)))

/-- Source: `roffEscape = regexp.MustCompile("[&\~_-]")`: the class of `&`,
`~`, `_` and `-`. -/
def roffEscape : Re := .one (.cls [(38, 38), (126, 126), (95, 95), (45, 45)])

/-- Source: `headingEscape = regexp.MustCompile("[\"]")`: the double quote. -/
def headingEscape : Re := .one (.cls [(34, 34)])

/-- The part of `titleRe` after the name group: `\((?P<num>\d)\) -- (?P<title>.+)`. -/
def titleTail : Re :=
  .cat (.one (.byte 40))
  (.cat (.group (.one clsDigit))
  (.cat (.one (.byte 41))
  (.cat (.one (.byte 32))
  (.cat (.one (.byte 45))
  (.cat (.one (.byte 45))
  (.cat (.one (.byte 32))
  (.group (.plus .notNL))))))))

/-- Source: `titleRe`, the pattern
`(?P<name>[A-Za-z][A-Za-z0-9_-]+)\((?P<num>\d)\) -- (?P<title>.+)`. -/
def titleRe : Re :=
  .cat (.group (.cat (.one clsAlpha) (.plus clsName))) titleTail

/-- Source: `escape(src, re)`: every match `c` of `re` in `src` is replaced
by `append(backslash, c...)`. -/
def escape (src : List Byte) (re : Re) : List Byte :=
  replaceAllFunc re src fun c => backslash ++ c

/-- Source: `sanitizeInput(src)`: every match of `htmlEscape` is replaced by
`\<`, then `match[1:len(match)-1]`, then `\>`. -/
def sanitizeInput (src : List Byte) : List Byte :=
  replaceAllFunc htmlEscape src fun m =>
    let openBracket := bytes "\\<"
    let closeBracket := bytes "\\>"
    let res := openBracket ++ (m.take (m.length - 1)).drop 1
    res ++ closeBracket

/-! ## The AST and its traversal (blackfriday) -/

/-- The node kinds of blackfriday's `NodeType`. -/
inductive NodeType where
  | Document | BlockQuote | List | Item | Paragraph | Heading | HorizontalRule
  | Emph | Strong | Del | Link | Image | Text | HTMLBlock | CodeBlock
  | Softbreak | Hardbreak | Code | HTMLSpan
  | Table | TableCell | TableHead | TableBody | TableRow
deriving DecidableEq, Repr

/-- The fields of `blackfriday.Node` that the renderer reads: `Type`,
`Literal`, `HeadingData.Level` and the children in document order.  The
`Parent` pointer is the node that holds this one among its children; the
traversal passes the parent's type along. -/
inductive Node where
  | mk (type : NodeType) (literal : List Byte) (level : Int) (children : List Node)

/-- Field `Type`. -/
def Node.type : Node → NodeType
  | .mk t _ _ _ => t

/-- Field `Literal`. -/
def Node.literal : Node → List Byte
  | .mk _ l _ _ => l

/-- Field `HeadingData.Level`. -/
def Node.level : Node → Int
  | .mk _ _ n _ => n

/-- The children, first to last. -/
def Node.children : Node → List Node
  | .mk _ _ _ cs => cs

/-- The directive a visitor returns to `Walk`. -/
inductive WalkStatus where
  | GoToNext | SkipChildren | Terminate
deriving DecidableEq, Repr

/-- Modelled from the spec: blackfriday's `Node.IsContainer` (library code):
the kinds that `Walk` enters and leaves; every other kind is visited once. -/
def isContainer : NodeType → Bool
  | .Document | .BlockQuote | .List | .Item | .Paragraph | .Heading
  | .Emph | .Strong | .Del | .Link | .Image
  | .Table | .TableHead | .TableBody | .TableRow | .TableCell => true
  | _ => false

/-- The outcome of a traversal: the visitor's state, and whether the visitor
asked to stop. -/
structure Walked (σ : Type) where
  state : σ
  stopped : Bool

mutual
/-- Modelled from the spec: blackfriday's `Node.Walk` (library code), the
pre-order traversal with enter and exit events.  The visitor is called on a
node with `entering = true`; for a container it is then called on each child
subtree in order and on the node again with `entering = false`.  `SkipChildren`
skips both the children and the exit call, `Terminate` ends the traversal, and
a node that is not a container gets the entering call only.  The visitor gets
the type of the node's parent (`none` for a nil `Parent`); a visitor that
fails (a Go panic) gives `none`. -/
def walkNode {σ : Type} (visit : σ → Node → Option NodeType → Bool → Option (σ × WalkStatus))
    (parent : Option NodeType) : Node → σ → Option (Walked σ)
  | .mk t l n cs, s =>
    match visit s (.mk t l n cs) parent true with
    | none => none
    | some (s₁, .Terminate) => some ⟨s₁, true⟩
    | some (s₁, .SkipChildren) => some ⟨s₁, false⟩
    | some (s₁, .GoToNext) =>
      if isContainer t then
        match walkChildren visit (some t) cs s₁ with
        | none => none
        | some ⟨s₂, true⟩ => some ⟨s₂, true⟩
        | some ⟨s₂, false⟩ =>
          match visit s₂ (.mk t l n cs) parent false with
          | none => none
          | some (s₃, .Terminate) => some ⟨s₃, true⟩
          | some (s₃, _) => some ⟨s₃, false⟩
      else some ⟨s₁, false⟩
/-- The traversal of the children of a container, first to last. -/
def walkChildren {σ : Type} (visit : σ → Node → Option NodeType → Bool → Option (σ × WalkStatus))
    (parent : Option NodeType) : List Node → σ → Option (Walked σ)
  | [], s => some ⟨s, false⟩
  | c :: cs, s =>
    match walkNode visit parent c s with
    | none => none
    | some ⟨s₁, true⟩ => some ⟨s₁, true⟩
    | some ⟨s₁, false⟩ => walkChildren visit parent cs s₁
end

/-! ## The roff renderer -/

/-- The largest value of Go's `int` (64 bits): incrementing it wraps around
to the smallest value. -/
def maxInt : Nat := 2 ^ 63 - 1

/-- Source: `type RoffRenderer struct`.  `itemIndex` is a Go `int` that is
only ever set to 0 and incremented.  The model keeps its value as a natural
number; that is the value of the field as long as the increment does not
overflow, that is for an index below `maxInt` before the increment. -/
structure RoffRenderer where
  Version : List Byte
  Date : List Byte
  itemIndex : Nat
deriving DecidableEq, Repr

/-- Source: `textContent(node)`: walks the subtree and appends the `Literal`
of every node entered whose literal is non-empty. -/
def textContent (node : Node) : List Byte :=
  let visit := fun (buf : List Byte) (n : Node) (_ : Option NodeType) (entering : Bool) =>
    some (if entering && decide (n.literal.length > 0) then buf ++ n.literal else buf,
      WalkStatus.GoToNext)
  match walkNode visit none node [] with
  | some w => w.state
  | none => []

/-- Source: `renderHeading(buf, node, date, version)`: the bytes written to
`buf`, in order. -/
def renderHeading (node : Node) (date version : List Byte) : List Byte :=
  let text := textContent node
  if node.level = 1 then
    let (name, num, text) :=
      match findAllSubmatch1 titleRe text with
      | some sub => (sub.getD 1 [], sub.getD 2 [], sub.getD 3 [])
      | none => ([], [], text)
    (bytes ".TH \"" ++ escape name headingEscape ++ bytes "\" \"" ++ num
      ++ bytes "\" \"" ++ escape date headingEscape ++ bytes "\" \""
      ++ escape version headingEscape ++ bytes "\" \"" ++ escape text headingEscape
      ++ bytes "\"\n")
    ++ bytes ".nh\n"
    ++ bytes ".ad l\n"
  else if node.level = 2 ∨ node.level = 3 then
    let ht := if node.level = 2 then bytes ".SH" else bytes ".SS"
    ht ++ bytes " \"" ++ escape text headingEscape ++ bytes "\"\n"
  else []

/-- What the first `switch` of `RenderNode` leaves behind. -/
structure Entered where
  /-- The renderer after the switch. -/
  r : RoffRenderer
  /-- The bytes written by the switch. -/
  out : List Byte
  /-- The `Heading` case returned `SkipChildren` from inside the switch. -/
  returned : Bool
deriving DecidableEq, Repr

/-- Source: the `switch node.Type` under `if entering` in `RenderNode`.
`none` is the nil dereference of `node.Parent.Type` on a Paragraph without
parent. -/
def enterSwitch (r : RoffRenderer) (node : Node) (parent : Option NodeType) : Option Entered :=
  match node.type with
  | .Emph => some ⟨r, bytes "\\fI", false⟩
  | .Strong => some ⟨r, bytes "\\fB", false⟩
  | .Link => some ⟨r, bytes "\\[la]", false⟩
  | .Code => some ⟨r, bytes "\\fB\\fC", false⟩
  | .Hardbreak => some ⟨r, bytes "\n.br\n", false⟩
  | .Paragraph =>
    match parent with
    | none => none
    | some pt => if pt ≠ .Item then some ⟨r, bytes ".PP\n", false⟩ else some ⟨r, [], false⟩
  | .CodeBlock => some ⟨r, bytes ".PP\n.RS\n.nf\n", false⟩
  | .List => some ⟨{ r with itemIndex := 0 }, [], false⟩
  | .Item =>
    some ⟨{ r with itemIndex := r.itemIndex + 1 },
      if r.itemIndex % 2 = 0 then bytes ".PP\n" else bytes ".RS 4\n", false⟩
  | .Heading => some ⟨r, renderHeading node r.Date r.Version, true⟩
  | _ => some ⟨r, [], false⟩

/-- Source: the `switch node.Type` under `if !entering || leaf` in
`RenderNode`: the bytes written. -/
def exitSwitch (r : RoffRenderer) (node : Node) (leaf : Bool) : List Byte :=
  match node.type with
  | .Emph | .Strong => bytes "\\fP"
  | .Link => bytes "\\[ra]"
  | .Code => bytes "\\fR"
  | .CodeBlock => bytes "\n.fi\n.RE\n"
  | .HTMLSpan | .Del | .Image => []
  | .Item => if r.itemIndex % 2 = 0 then bytes ".RE\n" else []
  | _ => if !leaf then bytes "\n" else []

/-- Source: `(r *RoffRenderer) RenderNode(buf, node, entering)`.  The result
is the renderer after the call, the bytes written to `buf` in order, and the
returned status; `none` is a panic. -/
def RenderNode (r : RoffRenderer) (node : Node) (parent : Option NodeType) (entering : Bool) :
    Option (RoffRenderer × List Byte × WalkStatus) :=
  match (if entering then enterSwitch r node parent else some ⟨r, [], false⟩) with
  | none => none
  | some ⟨r, out, true⟩ => some (r, out, .SkipChildren)
  | some ⟨r, out, false⟩ =>
    let leaf := decide (node.literal.length > 0)
    let out := if leaf then out ++ escape node.literal roffEscape else out
    let out := if !entering || leaf then out ++ exitSwitch r node leaf else out
    some (r, out, .GoToNext)

/-- The visitor that `Generate` hands to `ast.Walk`: `RenderNode` with the
renderer and the output written so far as the state. -/
def roffVisit (st : RoffRenderer × List Byte) (node : Node) (parent : Option NodeType)
    (entering : Bool) : Option ((RoffRenderer × List Byte) × WalkStatus) :=
  match RenderNode st.1 node parent entering with
  | none => none
  | some (r, out, status) => some ((r, st.2 ++ out), status)

/-- The walk of a subtree with `RenderNode` (the loop body of `Generate` on
that subtree): the renderer afterwards and the whole output written. -/
def renderWalk (r : RoffRenderer) (parent : Option NodeType) (node : Node) :
    Option (RoffRenderer × List Byte) :=
  match walkNode roffVisit parent node (r, []) with
  | none => none
  | some w => some w.state


/-! ## The driver (`md2roff-bin/cmd.go`) -/

/-- Modelled from the spec: Go's `strings.TrimSuffix(s, suffix)` (library
code): `s` without the trailing `suffix` when it ends with it, `s` itself
otherwise. -/
def trimSuffix (s suffix : List Byte) : List Byte :=
  if suffix <:+ s then s.take (s.length - suffix.length) else s

/-- Source: `roffFile := strings.TrimSuffix(mdFile, ".md") + ".1"` in
`generateFromFile`. -/
def roffFile (mdFile : List Byte) : List Byte := trimSuffix mdFile (bytes ".md") ++ bytes ".1"

/-- Source: `htmlFile := strings.TrimSuffix(mdFile, ".md") + ".html"` in
`generateFromFile`. -/
def htmlFile (mdFile : List Byte) : List Byte := trimSuffix mdFile (bytes ".md") ++ bytes ".html"

/-! ## Auxiliary notions for the statements -/

/-- An ASCII letter. -/
def IsLetter (c : Byte) : Prop := (65 ≤ c ∧ c ≤ 90) ∨ (97 ≤ c ∧ c ≤ 122)

/-- An ASCII digit. -/
def IsDigit (c : Byte) : Prop := 48 ≤ c ∧ c ≤ 57

/-- A letter, a digit, an underscore or a hyphen. -/
def IsNameChar (c : Byte) : Prop := IsLetter c ∨ IsDigit c ∨ c = 95 ∨ c = 45

instance (c : Byte) : Decidable (IsLetter c) := by unfold IsLetter; infer_instance

instance (c : Byte) : Decidable (IsDigit c) := by unfold IsDigit; infer_instance

instance (c : Byte) : Decidable (IsNameChar c) := by unfold IsNameChar; infer_instance

/-- A letter followed by zero or more letters, digits, underscores or hyphens. -/
def IsLetterLedName (t : List Byte) : Prop :=
  ∃ c name, t = c :: name ∧ IsLetter c ∧ ∀ y ∈ name, IsNameChar y

/-- A title name as `titleRe` takes it: a letter followed by one or more
letters, digits, underscores or hyphens. -/
def IsTitleName (t : List Byte) : Prop :=
  ∃ c y name, t = c :: y :: name ∧ IsLetter c ∧ IsNameChar y ∧ ∀ x ∈ name, IsNameChar x

/-- The text with a backslash put before every double quote and every other
byte unchanged. -/
def quoteEscaped (s : List Byte) : List Byte :=
  s.flatMap fun c => if c = 34 then [92, c] else [c]

/-- The roff metacharacters `&`, `~`, `_` and `-`. -/
def IsRoffMeta (c : Byte) : Prop := c = 38 ∨ c = 126 ∨ c = 95 ∨ c = 45

instance (c : Byte) : Decidable (IsRoffMeta c) := by unfold IsRoffMeta; infer_instance

/-- The text with one backslash put before every roff metacharacter and every
other byte unchanged. -/
def roffEscaped (s : List Byte) : List Byte :=
  s.flatMap fun c => if IsRoffMeta c then [92, c] else [c]

/-- The text holds, somewhere, a title of the form `NAME(N) -- ` followed by
a byte other than newline. -/
def HasTitle (s : List Byte) : Prop :=
  ∃ u name n z v, IsTitleName name ∧ IsDigit n ∧ z ≠ 10 ∧
    s = u ++ name ++ 40 :: n :: 41 :: 32 :: 45 :: 45 :: 32 :: z :: v

/-- The text follows the form `NAME(N) -- DESCRIPTION` as a whole: a
letter-led NAME (a letter and then letters, digits, underscores or hyphens),
one digit N, the separator, and DESCRIPTION the remainder. -/
def FollowsTitleForm (s : List Byte) : Prop :=
  ∃ name n desc, IsLetterLedName name ∧ IsDigit n ∧
    s = name ++ 40 :: n :: 41 :: 32 :: 45 :: 45 :: 32 :: desc

mutual
/-- The subtree holds no List and no Item node. -/
def Node.flat : Node → Bool
  | .mk t _ _ cs => t != .List && t != .Item && flatList cs
/-- No subtree of the list holds a List or an Item node. -/
def flatList : List Node → Bool
  | [] => true
  | c :: cs => c.flat && flatList cs
end

/-- The output of walking the children of a node of kind `parent` with
`RenderNode`. -/
def renderChildren (r : RoffRenderer) (parent : NodeType) (cs : List Node) : List Byte :=
  match walkChildren roffVisit (some parent) cs (r, []) with
  | some w => w.state.2
  | none => []

/-- The rendering of the items of a list as the spec words it, the first item
of `items` being the `k`-th of its list (counted from 1): an odd item is
`.PP` and its content, an even item is `.RS 4`, its content and `.RE`. -/
def itemsMarkup (r : RoffRenderer) : Nat → List Node → List Byte
  | _, [] => []
  | k, it :: its =>
    (if k % 2 = 1 then bytes ".PP\n" ++ renderChildren r .Item it.children
      else bytes ".RS 4\n" ++ renderChildren r .Item it.children ++ bytes ".RE\n")
    ++ itemsMarkup r (k + 1) its

/-- The input made of the given pieces and a last stretch of bytes; a piece
is a stretch of bytes followed by a name between the brackets `lt` and `gt`. -/
def withTags (lt gt : List Byte) (pieces : List (List Byte × List Byte)) (last : List Byte) :
    List Byte :=
  pieces.flatMap (fun p => p.1 ++ lt ++ p.2 ++ gt) ++ last

/-- The visitor of `textContent`: on entering a node with non-empty literal
it appends the literal to the buffer; it always goes on. -/
def textVisit (buf : List Byte) (n : Node) (_ : Option NodeType) (entering : Bool) :
    Option (List Byte × WalkStatus) :=
  some (if entering && decide (n.literal.length > 0) then buf ++ n.literal else buf,
    WalkStatus.GoToNext)

mutual
/-- The literals of the node and of all its descendants, in document
(pre-order) order, each once. -/
def Node.literals : Node → List Byte
  | .mk _ l _ cs => l ++ literalsList cs
/-- The literals of the subtrees of the list, in order. -/
def literalsList : List Node → List Byte
  | [] => []
  | c :: cs => c.literals ++ literalsList cs
end

mutual
/-- The literals of the nodes that a walk enters: the node itself and, below
a container, the nodes its children's walks enter. -/
def Node.walkedLiterals : Node → List Byte
  | .mk t l _ cs => l ++ (if isContainer t then walkedLiteralsList cs else [])
/-- The literals of the nodes entered in the subtrees of the list. -/
def walkedLiteralsList : List Node → List Byte
  | [] => []
  | c :: cs => c.walkedLiterals ++ walkedLiteralsList cs
end

mutual
/-- In the subtree only containers have children, as in every AST the parser
builds. -/
def Node.leavesChildless : Node → Bool
  | .mk t _ _ cs => (isContainer t || cs.isEmpty) && leavesChildlessList cs
/-- The same for every subtree of the list. -/
def leavesChildlessList : List Node → Bool
  | [] => true
  | c :: cs => c.leavesChildless && leavesChildlessList cs
end

/-- The opening markup of the three inline containers as the spec lists it:
`\fI` for Emph, `\fB` for Strong, `\[la]` for Link. -/
def spanOpen : NodeType → List Byte
  | .Emph => bytes "\\fI"
  | .Strong => bytes "\\fB"
  | .Link => bytes "\\[la]"
  | _ => []

/-- The closing markup of the three inline containers as the spec lists it:
`\fP` for Emph and Strong, `\[ra]` for Link. -/
def spanClose : NodeType → List Byte
  | .Emph => bytes "\\fP"
  | .Strong => bytes "\\fP"
  | .Link => bytes "\\[ra]"
  | _ => []

/-- An item of a list without nested list: an Item node (a container, so
without literal of its own) below which lies no List node and, Item nodes
being children of List nodes only, no Item node either. -/
def IsPlainItem (it : Node) : Prop :=
  it.type = .Item ∧ it.literal = [] ∧ flatList it.children = true

/-- An Item node over one Paragraph over one Text node. -/
def itemNode (s : String) : Node := .mk .Item [] 0 [.mk .Paragraph [] 0 [.mk .Text (bytes s) 0 []]]

/-- A Text node with the given literal. -/
def textNode (s : String) : Node := .mk .Text (bytes s) 0 []

/-- A Heading node of the given level over one Text node. -/
def headingNode (level : Int) (s : String) : Node := .mk .Heading [] level [textNode s]

/-- The renderer that `generateFromFile` builds in `cmd.go`. -/
def hubRenderer : RoffRenderer := ⟨bytes "Hub v2.4.0", bytes "Jan 5, 1984", 0⟩

/-- The input holds a bare tag: `<`, a tag name, `>`. -/
def HasBareTag (s : List Byte) : Prop :=
  ∃ u t v, IsLetterLedName t ∧ s = u ++ 60 :: t ++ 62 :: v

/-- A lower bound on the number of bytes a pattern consumes. -/
def Re.minLen : Re → Nat
  | .one _ => 1
  | .star _ => 0
  | .plus _ => 1
  | .cat r₁ r₂ => r₁.minLen + r₂.minLen
  | .group r => r.minLen

/-! ## The pattern matcher -/

theorem starMatches_split (a : Atom) :
    ∀ (s : List Byte) (m : Match), m ∈ starMatches a s → m.matched ++ m.rest = s := by
  intro s
  induction s with
  | nil => intro m hm; simp [starMatches] at hm; subst hm; rfl
  | cons x t ih =>
    intro m hm
    unfold starMatches at hm
    split at hm
    · rcases List.mem_append.1 hm with h | h
      · obtain ⟨m', hm', rfl⟩ := List.mem_map.1 h
        simp [ih m' hm']
      · simp at h; subst h; rfl
    · simp at hm; subst hm; rfl

theorem Re.matches_split :
    ∀ (re : Re) (s : List Byte) (m : Match), m ∈ re.matches s → m.matched ++ m.rest = s := by
  intro re
  induction re with
  | one a =>
    intro s m hm
    cases s with
    | nil => simp [Re.matches] at hm
    | cons x t =>
      simp only [Re.matches] at hm
      split at hm
      · simp at hm; subst hm; rfl
      · simp at hm
  | star a => intro s m hm; exact starMatches_split a s m hm
  | plus a =>
    intro s m hm
    cases s with
    | nil => simp [Re.matches] at hm
    | cons x t =>
      simp only [Re.matches] at hm
      split at hm
      · obtain ⟨m', hm', rfl⟩ := List.mem_map.1 hm
        simp [starMatches_split a t m' hm']
      · simp at hm
  | cat r₁ r₂ ih₁ ih₂ =>
    intro s m hm
    simp only [Re.matches, List.mem_flatMap, List.mem_map] at hm
    obtain ⟨m₁, h₁, m₂, h₂, rfl⟩ := hm
    have e₁ := ih₁ s m₁ h₁
    have e₂ := ih₂ m₁.rest m₂ h₂
    simp [List.append_assoc, e₂, e₁]
  | group r ih =>
    intro s m hm
    simp only [Re.matches, List.mem_map] at hm
    obtain ⟨m', hm', rfl⟩ := hm
    exact ih s m' hm'

theorem Re.matches_minLen :
    ∀ (re : Re) (s : List Byte) (m : Match), m ∈ re.matches s → re.minLen ≤ m.matched.length := by
  intro re
  induction re with
  | one a =>
    intro s m hm
    cases s with
    | nil => simp [Re.matches] at hm
    | cons x t =>
      simp only [Re.matches] at hm
      split at hm
      · simp at hm; subst hm; simp [Re.minLen]
      · simp at hm
  | star a => intro s m _; simp [Re.minLen]
  | plus a =>
    intro s m hm
    cases s with
    | nil => simp [Re.matches] at hm
    | cons x t =>
      simp only [Re.matches] at hm
      split at hm
      · obtain ⟨m', _, rfl⟩ := List.mem_map.1 hm
        simp [Re.minLen]
      · simp at hm
  | cat r₁ r₂ ih₁ ih₂ =>
    intro s m hm
    simp only [Re.matches, List.mem_flatMap, List.mem_map] at hm
    obtain ⟨m₁, h₁, m₂, h₂, rfl⟩ := hm
    have e₁ := ih₁ s m₁ h₁
    have e₂ := ih₂ m₁.rest m₂ h₂
    simp only [Re.minLen, List.length_append]
    omega
  | group r ih =>
    intro s m hm
    simp only [Re.matches, List.mem_map] at hm
    obtain ⟨m', hm', rfl⟩ := hm
    exact ih s m' hm'

theorem Re.matchAt_mem {re : Re} {s : List Byte} {m : Match} (h : re.matchAt s = some m) :
    m ∈ re.matches s := by
  unfold Re.matchAt at h
  exact List.mem_of_mem_head? h

theorem Re.matchAt_split {re : Re} {s : List Byte} {m : Match} (h : re.matchAt s = some m) :
    m.matched ++ m.rest = s :=
  Re.matches_split re s m (Re.matchAt_mem h)

theorem Re.matchAt_length {re : Re} {s : List Byte} {m : Match} (h : re.matchAt s = some m) :
    re.minLen ≤ m.matched.length :=
  Re.matches_minLen re s m (Re.matchAt_mem h)

theorem Re.find_of_matchAt {re : Re} {s : List Byte} {m : Match} (h : re.matchAt s = some m) :
    re.find s = some ([], m) := by
  cases s with
  | nil => simp [Re.find, h]
  | cons x t => simp [Re.find, h]

theorem Re.find_cons_of_none {re : Re} {x : Byte} {t : List Byte}
    (h : re.matchAt (x :: t) = none) :
    re.find (x :: t) = (re.find t).map fun pm => (x :: pm.1, pm.2) := by
  simp [Re.find, h]

/-- The leftmost match found by the search is the match at the position it
reports, and the skipped bytes, the match and the rest make up the input. -/
theorem Re.find_spec (re : Re) :
    ∀ (s pre : List Byte) (m : Match), re.find s = some (pre, m) →
      s = pre ++ (m.matched ++ m.rest) ∧ re.matchAt (m.matched ++ m.rest) = some m := by
  intro s
  induction s with
  | nil =>
    intro pre m h
    simp only [Re.find, Option.map_eq_some'] at h
    obtain ⟨m', hm', he⟩ := h
    cases he
    have := Re.matchAt_split hm'
    simp [this, hm']
  | cons x t ih =>
    intro pre m h
    cases hx : re.matchAt (x :: t) with
    | some m' =>
      rw [Re.find_of_matchAt hx] at h
      cases h
      have := Re.matchAt_split hx
      simp [this, hx]
    | none =>
      rw [Re.find_cons_of_none hx] at h
      simp only [Option.map_eq_some'] at h
      obtain ⟨⟨pre', m'⟩, hf, he⟩ := h
      cases he
      obtain ⟨e, hm⟩ := ih pre' m' hf
      exact ⟨by simp [← e], hm⟩

theorem Re.find_eq_none (re : Re) :
    ∀ (s : List Byte), (∀ u v, s = u ++ v → re.matchAt v = none) → re.find s = none := by
  intro s
  induction s with
  | nil =>
    intro h
    simp [Re.find, h [] [] rfl]
  | cons x t ih =>
    intro h
    rw [Re.find_cons_of_none (h [] (x :: t) rfl), ih (fun u v e => h (x :: u) v (by simp [e]))]
    rfl

/-! ## The replacement scan -/

theorem replaceAllFuncAux_of_find_none {re : Re} (repl : List Byte → List Byte) (n : Nat)
    (b : Bool) {s : List Byte} (h : re.find s = none) :
    replaceAllFuncAux re repl n b s = s := by
  cases n with
  | zero => rfl
  | succ n => simp [replaceAllFuncAux, h]

theorem replaceAllFuncAux_of_find_some {re : Re} (hre : 0 < re.minLen)
    (repl : List Byte → List Byte) (n : Nat) (b : Bool) {s pre : List Byte} {m : Match}
    (h : re.find s = some (pre, m)) :
    replaceAllFuncAux re repl (n + 1) b s
      = pre ++ repl m.matched ++ replaceAllFuncAux re repl n true m.rest := by
  have hlen := Re.matchAt_length (Re.find_spec re s pre m h).2
  cases hm : m.matched with
  | nil => simp [hm] at hlen; omega
  | cons y ys => simp [replaceAllFuncAux, h, hm]

/-- With a pattern that consumes at least one byte per match, the scan does
not depend on the fuel once it exceeds the length of the input, nor on the
flag. -/
theorem replaceAllFuncAux_fuel {re : Re} (hre : 0 < re.minLen) (repl : List Byte → List Byte) :
    ∀ (n k : Nat) (b c : Bool) (s : List Byte), s.length < n → s.length < k →
      replaceAllFuncAux re repl n b s = replaceAllFuncAux re repl k c s := by
  intro n
  induction n with
  | zero => intro k b c s h; omega
  | succ n ih =>
    intro k b c s hn hk
    cases k with
    | zero => omega
    | succ k =>
      cases hf : re.find s with
      | none =>
        rw [replaceAllFuncAux_of_find_none repl _ _ hf, replaceAllFuncAux_of_find_none repl _ _ hf]
      | some pm =>
        obtain ⟨pre, m⟩ := pm
        rw [replaceAllFuncAux_of_find_some hre repl n b hf,
          replaceAllFuncAux_of_find_some hre repl k c hf]
        obtain ⟨e, hm⟩ := Re.find_spec re s pre m hf
        have hlen := Re.matchAt_length hm
        have hs : s.length = pre.length + (m.matched.length + m.rest.length) := by
          rw [e]; simp
        rw [ih k true true m.rest (by omega) (by omega)]

theorem replaceAllFunc_of_find_none {re : Re} (repl : List Byte → List Byte) {s : List Byte}
    (h : re.find s = none) : replaceAllFunc re s repl = s :=
  replaceAllFuncAux_of_find_none repl _ _ h

theorem replaceAllFunc_of_find_some {re : Re} (hre : 0 < re.minLen)
    (repl : List Byte → List Byte) {s pre : List Byte} {m : Match}
    (h : re.find s = some (pre, m)) :
    replaceAllFunc re s repl = pre ++ repl m.matched ++ replaceAllFunc re m.rest repl := by
  unfold replaceAllFunc
  rw [replaceAllFuncAux_of_find_some hre repl _ _ h]
  obtain ⟨e, hm⟩ := Re.find_spec re s pre m h
  have hlen := Re.matchAt_length hm
  have hs : s.length = pre.length + (m.matched.length + m.rest.length) := by
    rw [e]; simp
  rw [replaceAllFuncAux_fuel hre repl s.length (m.rest.length + 1) true false m.rest
    (by omega) (by omega)]

theorem Re.matchAt_nil_of_minLen {re : Re} (hre : 0 < re.minLen) : re.matchAt [] = none := by
  cases h : re.matchAt [] with
  | none => rfl
  | some m =>
    have h1 := Re.matchAt_split h
    have h2 := Re.matchAt_length h
    simp at h1
    simp [h1.1] at h2
    omega

theorem replaceAllFunc_nil {re : Re} (hre : 0 < re.minLen) (repl : List Byte → List Byte) :
    replaceAllFunc re [] repl = [] := by
  apply replaceAllFunc_of_find_none
  simp [Re.find, Re.matchAt_nil_of_minLen hre]

/-- Where the pattern matches at the current position, the scan writes the
replacement and goes on after the match. -/
theorem replaceAllFunc_of_matchAt {re : Re} (hre : 0 < re.minLen)
    (repl : List Byte → List Byte) {s : List Byte} {m : Match} (h : re.matchAt s = some m) :
    replaceAllFunc re s repl = repl m.matched ++ replaceAllFunc re m.rest repl := by
  rw [replaceAllFunc_of_find_some hre repl (Re.find_of_matchAt h)]
  simp

/-- Where the pattern does not match at the current position, the scan copies
one byte and goes on. -/
theorem replaceAllFunc_cons_of_none {re : Re} (hre : 0 < re.minLen)
    (repl : List Byte → List Byte) {x : Byte} {t : List Byte}
    (h : re.matchAt (x :: t) = none) :
    replaceAllFunc re (x :: t) repl = x :: replaceAllFunc re t repl := by
  cases hf : re.find t with
  | none =>
    have hx : re.find (x :: t) = none := by rw [Re.find_cons_of_none h, hf]; rfl
    rw [replaceAllFunc_of_find_none repl hx, replaceAllFunc_of_find_none repl hf]
  | some pm =>
    obtain ⟨pre, m⟩ := pm
    have hx : re.find (x :: t) = some (x :: pre, m) := by rw [Re.find_cons_of_none h, hf]; rfl
    rw [replaceAllFunc_of_find_some hre repl hx, replaceAllFunc_of_find_some hre repl hf]
    simp

theorem matchAt_one (a : Atom) (x : Byte) (t : List Byte) :
    (Re.one a).matchAt (x :: t) = if a.test x then some ⟨[x], t, []⟩ else none := by
  unfold Re.matchAt
  simp only [Re.matches]
  split <;> simp

/-- On a single-character pattern `escape` puts one backslash before every
byte the pattern accepts and copies the other bytes. -/
theorem escape_one (a : Atom) (s : List Byte) :
    escape s (.one a) = s.flatMap fun c => if a.test c then [92, c] else [c] := by
  have hre : 0 < (Re.one a).minLen := by simp [Re.minLen]
  induction s with
  | nil => exact replaceAllFunc_nil hre _
  | cons x t ih =>
    unfold escape at ih ⊢
    by_cases hx : a.test x = true
    · have h : (Re.one a).matchAt (x :: t) = some ⟨[x], t, []⟩ := by
        rw [matchAt_one, if_pos hx]
      rw [replaceAllFunc_of_matchAt hre _ h, ih]
      simp [hx, backslash]
    · have h : (Re.one a).matchAt (x :: t) = none := by
        rw [matchAt_one, if_neg hx]
      rw [replaceAllFunc_cons_of_none hre _ h, ih]
      simp [hx]

/-! ## The patterns of `renderer.go` -/

theorem takeWhile_dropWhile_append_cons (p : Byte → Bool) (x : Byte) (r : List Byte)
    (hx : p x = false) :
    ∀ l : List Byte, (∀ y ∈ l, p y = true) →
      (l ++ x :: r).takeWhile p = l ∧ (l ++ x :: r).dropWhile p = x :: r := by
  intro l
  induction l with
  | nil => intro _; simp [List.takeWhile, List.dropWhile, hx]
  | cons y l ih =>
    intro h
    have hy : p y = true := h y (by simp)
    have := ih (fun z hz => h z (by simp [hz]))
    simp [List.takeWhile, List.dropWhile, hy, this]

/-- Greedy repetition followed by a step that needs a byte outside the
repeated class: only the longest repetition can be continued. -/
theorem starMatches_flatMap_next (a : Atom) (c : Byte) (hc : a.test c = false) :
    ∀ (t : List Byte) (K : Match → List Match), (∀ m, m.rest.head? ≠ some c → K m = []) →
      (starMatches a t).flatMap K =
        if (t.dropWhile a.test).head? = some c then
          K ⟨t.takeWhile a.test, t.dropWhile a.test, []⟩
        else [] := by
  intro t
  induction t with
  | nil =>
    intro K hK
    simp [starMatches, hK]
  | cons x t ih =>
    intro K hK
    by_cases hx : a.test x = true
    · have hxc : x ≠ c := by
        intro e; rw [e, hc] at hx; cases hx
      have h0 : K ⟨[], x :: t, []⟩ = [] := hK _ (by simp [hxc])
      simp only [starMatches, hx, if_true, List.flatMap_append, List.flatMap_map,
        List.flatMap_cons, List.flatMap_nil, h0, List.append_nil, List.takeWhile_cons,
        List.dropWhile_cons]
      exact ih (fun m => K ⟨x :: m.matched, m.rest, []⟩) (fun m hm => hK _ hm)
    · have hx' : a.test x = false := by simpa using hx
      simp only [starMatches, hx', List.flatMap_cons, List.flatMap_nil, List.append_nil,
        List.takeWhile_cons, List.dropWhile_cons, List.head?_cons]
      by_cases hxc : x = c
      · simp [hxc]
      · simp [hxc, hK ⟨[], x :: t, []⟩ (by simp [hxc])]

theorem Atom.test_byte (c x : Byte) : (Atom.byte c).test x = (x == c) := rfl

theorem matches_cat_one_nil (a : Atom) (r : Re) : (Re.cat (.one a) r).matches [] = [] := by
  simp [Re.matches]

theorem matches_cat_one (a : Atom) (r : Re) (x : Byte) (t : List Byte) :
    (Re.cat (.one a) r).matches (x :: t) =
      if a.test x then (r.matches t).map fun m => ⟨x :: m.matched, m.rest, m.caps⟩ else [] := by
  simp only [Re.matches]
  split <;> simp

theorem matches_cat_group_one_nil (a : Atom) (r : Re) :
    (Re.cat (.group (.one a)) r).matches [] = [] := by
  simp [Re.matches]

theorem matches_cat_group_one (a : Atom) (r : Re) (x : Byte) (t : List Byte) :
    (Re.cat (.group (.one a)) r).matches (x :: t) =
      if a.test x then (r.matches t).map fun m => ⟨x :: m.matched, m.rest, [x] :: m.caps⟩
      else [] := by
  simp only [Re.matches]
  split <;> simp

theorem matches_cat_group_one_star_nil (a b : Atom) (r : Re) :
    (Re.cat (.group (.cat (.one a) (.star b))) r).matches [] = [] := by
  simp [Re.matches]

theorem matches_cat_group_one_star (a b : Atom) (r : Re) (x : Byte) (t : List Byte) :
    (Re.cat (.group (.cat (.one a) (.star b))) r).matches (x :: t) =
      if a.test x then
        (starMatches b t).flatMap fun m =>
          (r.matches m.rest).map fun m₂ =>
            ⟨x :: m.matched ++ m₂.matched, m₂.rest, (x :: m.matched) :: (m.caps ++ m₂.caps)⟩
      else [] := by
  simp only [Re.matches]
  split <;> simp [List.flatMap_map, Function.comp_def]

theorem htmlEscape_matches (x c : Byte) (t : List Byte) :
    htmlEscape.matches (x :: c :: t) =
      if x = 60 ∧ clsAlpha.test c = true ∧ (t.dropWhile clsName.test).head? = some 62 then
        [⟨60 :: c :: t.takeWhile clsName.test ++ [62], (t.dropWhile clsName.test).tail,
          [c :: t.takeWhile clsName.test]⟩]
      else [] := by
  unfold htmlEscape
  rw [matches_cat_one, matches_cat_group_one_star, Atom.test_byte]
  by_cases hx : x = 60
  · subst hx
    by_cases hc : clsAlpha.test c = true
    · rw [starMatches_flatMap_next clsName 62 (by decide)]
      · cases hd : List.dropWhile clsName.test t with
        | nil => simp [hc]
        | cons y r =>
          by_cases hy : y = 62
          · subst hy
            simp [hc, Re.matches, Atom.test_byte]
          · simp [hc, hy]
      · intro m hm
        cases hr : m.rest with
        | nil => simp [Re.matches]
        | cons y r =>
          have : y ≠ 62 := by
            intro e; apply hm; simp [hr, e]
          simp [Re.matches, Atom.test_byte, this]
    · simp [hc]
  · simp [hx]

theorem clsAlpha_test (c : Byte) : clsAlpha.test c = true ↔ IsLetter c := by
  simp [clsAlpha, Atom.test, IsLetter]

theorem clsDigit_test (c : Byte) : clsDigit.test c = true ↔ IsDigit c := by
  simp [clsDigit, Atom.test, IsDigit]

theorem clsName_test (c : Byte) : clsName.test c = true ↔ IsNameChar c := by
  simp only [clsName, Atom.test, IsNameChar, IsLetter, IsDigit, List.any_cons, List.any_nil,
    Bool.or_false, Bool.or_eq_true, Bool.and_eq_true, decide_eq_true_eq]
  have key : ∀ n : Nat, (65 ≤ n ∧ n ≤ 90 ∨ 97 ≤ n ∧ n ≤ 122 ∨ 48 ≤ n ∧ n ≤ 57 ∨ 95 ≤ n ∧ n ≤ 95
      ∨ 45 ≤ n ∧ n ≤ 45) ↔ ((65 ≤ n ∧ n ≤ 90 ∨ 97 ≤ n ∧ n ≤ 122) ∨ 48 ≤ n ∧ n ≤ 57 ∨ n = 95
      ∨ n = 45) := by
    intro n; omega
  exact key c

theorem htmlEscape_minLen : 0 < htmlEscape.minLen := by decide

/-- The pattern matches at a bare tag, and the match is the tag. -/
theorem htmlEscape_matchAt_tag {c : Byte} {name : List Byte} (rest : List Byte)
    (hc : IsLetter c) (hname : ∀ y ∈ name, IsNameChar y) :
    htmlEscape.matchAt (60 :: c :: name ++ 62 :: rest)
      = some ⟨60 :: c :: name ++ [62], rest, [c :: name]⟩ := by
  have h := takeWhile_dropWhile_append_cons clsName.test 62 rest (by decide) name
    (fun y hy => (clsName_test y).2 (hname y hy))
  unfold Re.matchAt
  rw [List.cons_append, List.cons_append, htmlEscape_matches, h.1, h.2]
  simp [(clsAlpha_test c).2 hc]

/-- Wherever the pattern matches, the input starts with a bare tag and the
match is that tag. -/
theorem htmlEscape_matchAt_some {s : List Byte} {m : Match} (h : htmlEscape.matchAt s = some m) :
    ∃ c name rest, IsLetter c ∧ (∀ y ∈ name, IsNameChar y) ∧
      s = 60 :: c :: name ++ 62 :: rest ∧ m = ⟨60 :: c :: name ++ [62], rest, [c :: name]⟩ := by
  unfold Re.matchAt at h
  match s with
  | [] => simp [htmlEscape, Re.matches] at h
  | [x] =>
    rw [htmlEscape, matches_cat_one] at h
    split at h
    · simp [Re.matches] at h
    · simp at h
  | x :: c :: t =>
    rw [htmlEscape_matches] at h
    split at h
    · rename_i hcond
      obtain ⟨hx, hc, hd⟩ := hcond
      simp only [List.head?_cons, Option.some.injEq] at h
      refine ⟨c, t.takeWhile clsName.test, (t.dropWhile clsName.test).tail,
        (clsAlpha_test c).1 hc, ?_, ?_, h.symm⟩
      · intro y hy
        exact (clsName_test y).1 (List.mem_takeWhile_imp hy)
      · subst hx
        have e : t = t.takeWhile clsName.test ++ t.dropWhile clsName.test :=
          (List.takeWhile_append_dropWhile _ _).symm
        cases hdw : t.dropWhile clsName.test with
        | nil => simp [hdw] at hd
        | cons z r =>
          rw [hdw] at hd e
          simp at hd
          subst hd
          simp
          exact e
    · simp at h

theorem not_isNameChar_lt : ¬ IsNameChar 60 := by decide

/-- Source: the replacement function of `sanitizeInput`, on a bare tag. -/
theorem sanitize_repl_tag (t : List Byte) :
    (bytes "\\<" ++ ((60 :: t ++ [62]).take ((60 :: t ++ [62]).length - 1)).drop 1) ++ bytes "\\>"
      = 92 :: 60 :: t ++ [92, 62] := by
  have h : (60 :: t ++ [62]).take ((60 :: t ++ [62]).length - 1) = 60 :: t := by
    have : (60 :: t ++ [62]).length - 1 = (60 :: t).length := by simp
    rw [this, List.take_left']
    rfl
  rw [h]
  simp [bytes]

theorem sanitizeInput_nil : sanitizeInput [] = [] :=
  replaceAllFunc_nil htmlEscape_minLen _

theorem sanitizeInput_of_matchAt {c : Byte} {name : List Byte} (rest : List Byte)
    (hc : IsLetter c) (hname : ∀ y ∈ name, IsNameChar y) :
    sanitizeInput (60 :: c :: name ++ 62 :: rest)
      = 92 :: 60 :: c :: name ++ [92, 62] ++ sanitizeInput rest := by
  unfold sanitizeInput
  rw [replaceAllFunc_of_matchAt htmlEscape_minLen _ (htmlEscape_matchAt_tag rest hc hname)]
  have := sanitize_repl_tag (c :: name)
  simp only [List.cons_append] at this ⊢
  rw [this]
  simp

theorem sanitizeInput_cons_of_none {x : Byte} {t : List Byte}
    (h : htmlEscape.matchAt (x :: t) = none) :
    sanitizeInput (x :: t) = x :: sanitizeInput t :=
  replaceAllFunc_cons_of_none htmlEscape_minLen _ h

/-- A match that starts before a `<` ends before it. -/
theorem htmlEscape_matchAt_before {x : Byte} {u w : List Byte} {m : Match}
    (h : htmlEscape.matchAt (x :: u ++ 60 :: w) = some m) :
    ∃ u₂, x :: u = m.matched ++ u₂ ∧ m.rest = u₂ ++ 60 :: w := by
  obtain ⟨c, name, rest, hc, hname, hs, rfl⟩ := htmlEscape_matchAt_some h
  have hs' : (x :: u) ++ 60 :: w = (60 :: c :: name ++ [62]) ++ rest := by simpa using hs
  rcases List.append_eq_append_iff.1 hs' with ⟨a, h1, h2⟩ | ⟨a, h1, h2⟩
  · cases a with
    | nil =>
      refine ⟨[], by simpa using h1.symm, by simpa using h2.symm⟩
    | cons z a =>
      exfalso
      simp only [List.cons_append, List.cons.injEq] at h2
      obtain ⟨hz, -⟩ := h2
      subst hz
      simp only [List.cons_append, List.cons.injEq] at h1
      obtain ⟨-, h1⟩ := h1
      have hmem : (60 : Byte) ∈ u ++ 60 :: a := by simp
      rw [← h1] at hmem
      simp only [List.mem_cons, List.mem_append, List.mem_singleton] at hmem
      rcases hmem with e | e | e
      · rw [← e] at hc; revert hc; decide
      · exact not_isNameChar_lt (hname _ e)
      · revert e; decide
  · exact ⟨a, h1, h2⟩

theorem sanitizeInput_tag_aux {c : Byte} {name : List Byte} (hc : IsLetter c)
    (hname : ∀ y ∈ name, IsNameChar y) (v : List Byte) :
    ∀ (n : Nat) (u : List Byte), u.length ≤ n →
      sanitizeInput (u ++ 60 :: c :: name ++ 62 :: v)
        = sanitizeInput u ++ (92 :: 60 :: c :: name ++ [92, 62]) ++ sanitizeInput v := by
  intro n
  induction n with
  | zero =>
    intro u hu
    have : u = [] := List.length_eq_zero.1 (Nat.le_zero.1 hu)
    subst this
    rw [sanitizeInput_nil]
    simpa using sanitizeInput_of_matchAt v hc hname
  | succ n ih =>
    intro u hu
    cases u with
    | nil =>
      rw [sanitizeInput_nil]
      simpa using sanitizeInput_of_matchAt v hc hname
    | cons x u =>
      have hw : (x :: u) ++ 60 :: c :: name ++ 62 :: v
          = x :: (u ++ 60 :: (c :: name ++ 62 :: v)) := by
        simp
      rw [hw]
      cases hm : htmlEscape.matchAt (x :: (u ++ 60 :: (c :: name ++ 62 :: v))) with
      | none =>
        have hm₂ : htmlEscape.matchAt (x :: u) = none := by
          cases hm₂ : htmlEscape.matchAt (x :: u) with
          | none => rfl
          | some m₂ =>
            exfalso
            obtain ⟨c₂, name₂, rest₂, hc₂, hname₂, hs₂, -⟩ := htmlEscape_matchAt_some hm₂
            have := htmlEscape_matchAt_tag (rest₂ ++ 60 :: (c :: name ++ 62 :: v)) hc₂ hname₂
            have e : 60 :: c₂ :: name₂ ++ 62 :: (rest₂ ++ 60 :: (c :: name ++ 62 :: v))
                = x :: (u ++ 60 :: (c :: name ++ 62 :: v)) := by
              have := congrArg (fun l => l ++ 60 :: (c :: name ++ 62 :: v)) hs₂
              simpa using this.symm
            rw [e, hm] at this
            cases this
        rw [sanitizeInput_cons_of_none hm, sanitizeInput_cons_of_none hm₂]
        have := ih u (by simpa using hu)
        simp only [List.cons_append, List.append_assoc] at this ⊢
        rw [this]
      | some m =>
        rw [← List.cons_append] at hm
        obtain ⟨u₂, hu₂, hrest⟩ := htmlEscape_matchAt_before hm
        obtain ⟨c₂, name₂, rest₂, hc₂, hname₂, hs₂, rfl⟩ := htmlEscape_matchAt_some hm
        simp only at hu₂ hrest
        have hlen : u₂.length ≤ n := by
          have := congrArg List.length hu₂
          simp at this hu
          omega
        have e₁ : x :: (u ++ 60 :: (c :: name ++ 62 :: v))
            = 60 :: c₂ :: name₂ ++ 62 :: (u₂ ++ 60 :: c :: name ++ 62 :: v) := by
          have := congrArg (fun l => l ++ 60 :: (c :: name ++ 62 :: v)) hu₂
          simpa using this
        have e₂ : x :: u = 60 :: c₂ :: name₂ ++ 62 :: u₂ := by
          rw [hu₂]; simp
        rw [e₁, e₂, sanitizeInput_of_matchAt _ hc₂ hname₂, sanitizeInput_of_matchAt _ hc₂ hname₂,
          ih u₂ hlen]
        simp

theorem sanitizeInput_at_bare_tag (t : List Byte) (ht : IsLetterLedName t) (u v : List Byte) :
    sanitizeInput (u ++ 60 :: t ++ 62 :: v)
      = sanitizeInput u ++ (92 :: 60 :: t ++ [92, 62]) ++ sanitizeInput v := by
  obtain ⟨c, name, rfl, hc, hname⟩ := ht
  simpa using sanitizeInput_tag_aux hc hname v u.length u (Nat.le_refl _)

theorem sanitizeInput_without_bare_tag (s : List Byte) (hs : ¬ HasBareTag s) :
    sanitizeInput s = s := by
  apply replaceAllFunc_of_find_none
  apply Re.find_eq_none
  intro u v e
  cases hm : htmlEscape.matchAt v with
  | none => rfl
  | some m =>
    exfalso
    obtain ⟨c, name, rest, hc, hname, hv, -⟩ := htmlEscape_matchAt_some hm
    exact hs ⟨u, c :: name, rest, ⟨c, name, rfl, hc, hname⟩, by rw [e, hv]; simp⟩

/-- C6: `sanitizeInput` rewrites every bare tag `<t>` of its input, wherever
it stands, to `\<t\>` (a backslash before each angle bracket, the name
unchanged) and handles the bytes before and after it on their own; so an
input cut into stretches without bare tag, each followed by a bare tag, and a
last stretch comes back with every tag rewritten and every other byte
unchanged and in order.  The claim's witness: `<div>` becomes `\<div\>`. -/
theorem sanitizeInput_rewrites_bare_tag :
    (∀ t : List Byte, IsLetterLedName t → ∀ u v : List Byte,
      sanitizeInput (u ++ 60 :: t ++ 62 :: v)
        = sanitizeInput u ++ (92 :: 60 :: t ++ [92, 62]) ++ sanitizeInput v)
    ∧ (∀ (pieces : List (List Byte × List Byte)) (last : List Byte),
        (∀ p ∈ pieces, ¬ HasBareTag p.1 ∧ IsLetterLedName p.2) → ¬ HasBareTag last →
        sanitizeInput (withTags [60] [62] pieces last) = withTags [92, 60] [92, 62] pieces last)
    ∧ sanitizeInput (bytes "<div>") = bytes "\\<div\\>" := by
  refine ⟨sanitizeInput_at_bare_tag, ?_, by decide⟩
  intro pieces
  induction pieces with
  | nil =>
    intro last _ hlast
    simpa [withTags] using sanitizeInput_without_bare_tag last hlast
  | cons p ps ih =>
    intro last hp hlast
    have h₁ := hp p (by simp)
    have h₂ := ih last (fun q hq => hp q (by simp [hq])) hlast
    have e : withTags [60] [62] (p :: ps) last
        = p.1 ++ 60 :: p.2 ++ 62 :: withTags [60] [62] ps last := by
      simp [withTags]
    rw [e, sanitizeInput_at_bare_tag p.2 h₁.2, sanitizeInput_without_bare_tag p.1 h₁.1, h₂]
    simp [withTags]

theorem sanitizeInput_rewrites_bare_tag_witness :
    IsLetterLedName (bytes "div") ∧
    sanitizeInput (bytes "a" ++ 60 :: bytes "div" ++ 62 :: bytes "b")
      = bytes "a" ++ (92 :: 60 :: bytes "div" ++ [92, 62]) ++ bytes "b" :=
  ⟨⟨100, [105, 118], rfl, by decide, by decide⟩,
    (sanitizeInput_rewrites_bare_tag.1 (bytes "div")
      ⟨100, [105, 118], rfl, by decide, by decide⟩ (bytes "a") (bytes "b")).trans (by decide)⟩

/-- C7: `sanitizeInput` returns its input unchanged when the input holds no
bare tag (`<`, a letter, zero or more letters, digits, underscores or
hyphens, `>`); in particular the closing tag `</div>` and the tag with an
attribute `<div class="x">` come back byte for byte. -/
theorem sanitizeInput_unchanged_without_bare_tag :
    (∀ s : List Byte, ¬ HasBareTag s → sanitizeInput s = s)
    ∧ sanitizeInput (bytes "</div>") = bytes "</div>"
    ∧ sanitizeInput (bytes "<div class=\"x\">") = bytes "<div class=\"x\">" :=
  ⟨sanitizeInput_without_bare_tag, by decide, by decide⟩

theorem not_hasBareTag_of_no_gt (s : List Byte) (h : (62 : Byte) ∉ s) : ¬ HasBareTag s := by
  rintro ⟨u, t, v, -, e⟩
  apply h
  rw [e]
  simp

theorem sanitizeInput_unchanged_without_bare_tag_witness :
    ¬ HasBareTag (bytes "a < b") ∧ sanitizeInput (bytes "a < b") = bytes "a < b" :=
  ⟨not_hasBareTag_of_no_gt _ (by decide),
    sanitizeInput_unchanged_without_bare_tag.1 (bytes "a < b")
      (not_hasBareTag_of_no_gt _ (by decide))⟩

theorem notNL_test (c : Byte) : Atom.notNL.test c = true ↔ c ≠ 10 := by
  simp [Atom.test]

theorem starMatches_head (a : Atom) :
    ∀ s : List Byte,
      (starMatches a s).head? = some ⟨s.takeWhile a.test, s.dropWhile a.test, []⟩ := by
  intro s
  induction s with
  | nil => rfl
  | cons x t ih =>
    by_cases hx : a.test x = true
    · simp only [starMatches, hx, if_true, List.takeWhile_cons, List.dropWhile_cons]
      cases hs : starMatches a t with
      | nil => rw [hs] at ih; cases ih
      | cons m ms =>
        rw [hs] at ih
        simp only [List.head?_cons, Option.some.injEq] at ih
        simp [ih]
    · have hx' : a.test x = false := by simpa using hx
      simp [starMatches, hx', List.takeWhile_cons, List.dropWhile_cons]

theorem matches_cat_group_one_plus (a b : Atom) (r : Re) (x y : Byte) (t : List Byte) :
    (Re.cat (.group (.cat (.one a) (.plus b))) r).matches (x :: y :: t) =
      if a.test x = true ∧ b.test y = true then
        (starMatches b t).flatMap fun m =>
          (r.matches m.rest).map fun m₂ =>
            ⟨x :: y :: m.matched ++ m₂.matched, m₂.rest, (x :: y :: m.matched) :: m₂.caps⟩
      else [] := by
  simp only [Re.matches]
  by_cases hx : a.test x = true
  · by_cases hy : b.test y = true
    · simp [hx, hy, List.flatMap_map, Function.comp_def]
    · simp [hx, hy]
  · simp [hx]

theorem matches_cat_group_one_plus_short (a b : Atom) (r : Re) (s : List Byte)
    (hs : s.length < 2) : (Re.cat (.group (.cat (.one a) (.plus b))) r).matches s = [] := by
  match s with
  | [] => simp [Re.matches]
  | [x] =>
    simp only [Re.matches]
    split <;> simp
  | _ :: _ :: _ => simp at hs; omega

theorem matches_group_plus (a : Atom) (x : Byte) (t : List Byte) :
    (Re.group (.plus a)).matches (x :: t) =
      if a.test x then (starMatches a t).map fun m => ⟨x :: m.matched, m.rest, [x :: m.matched]⟩
      else [] := by
  simp only [Re.matches]
  split
  · rename_i h
    simp only [List.map_map]
    apply List.map_congr_left
    intro m hm
    have hc : m.caps = [] := by
      clear h
      induction t generalizing m with
      | nil => simp [starMatches] at hm; subst hm; rfl
      | cons z t ih =>
        unfold starMatches at hm
        split at hm
        · rcases List.mem_append.1 hm with h | h
          · obtain ⟨m', _, rfl⟩ := List.mem_map.1 h
            rfl
          · simp at h; subst h; rfl
        · simp at hm; subst hm; rfl
    simp [hc]
  · simp

theorem titleTail_matches_of_head {s : List Byte} (h : s.head? ≠ some 40) :
    titleTail.matches s = [] := by
  unfold titleTail
  cases s with
  | nil => exact matches_cat_one_nil _ _
  | cons x t =>
    rw [matches_cat_one, Atom.test_byte]
    have : x ≠ 40 := by intro e; apply h; simp [e]
    simp [this]

/-- The tail of the title pattern on `(d) -- ` followed by a byte other than
newline. -/
theorem titleTail_matches_intro {d z : Byte} (u : List Byte) (hd : IsDigit d) (hz : z ≠ 10) :
    titleTail.matches (40 :: d :: 41 :: 32 :: 45 :: 45 :: 32 :: z :: u)
      = (starMatches .notNL u).map fun m =>
          ⟨40 :: d :: 41 :: 32 :: 45 :: 45 :: 32 :: z :: m.matched, m.rest, [[d], z :: m.matched]⟩ := by
  unfold titleTail
  rw [matches_cat_one, matches_cat_group_one, matches_cat_one, matches_cat_one, matches_cat_one,
    matches_cat_one, matches_cat_one, matches_group_plus]
  simp [Atom.test_byte, (clsDigit_test d).2 hd, (notNL_test z).2 hz, Function.comp_def]

/-- Where the tail of the title pattern matches, the input starts with
`(d) -- ` and one more byte other than newline. -/
theorem titleTail_matches_elim {s : List Byte} (h : titleTail.matches s ≠ []) :
    ∃ d z u, IsDigit d ∧ z ≠ 10 ∧ s = 40 :: d :: 41 :: 32 :: 45 :: 45 :: 32 :: z :: u := by
  unfold titleTail at h
  match s with
  | [] => simp [Re.matches] at h
  | [_] => simp [Re.matches] at h
  | [_, _] => simp [Re.matches] at h
  | [_, _, _] => simp [Re.matches] at h
  | [_, _, _, _] => simp [Re.matches] at h
  | [_, _, _, _, _] => simp [Re.matches] at h
  | [_, _, _, _, _, _] => simp [Re.matches] at h
  | [_, _, _, _, _, _, _] => simp [Re.matches] at h
  | p :: d :: q :: s₁ :: h₁ :: h₂ :: s₂ :: z :: u =>
    rw [matches_cat_one, matches_cat_group_one, matches_cat_one, matches_cat_one, matches_cat_one,
      matches_cat_one, matches_cat_one, matches_group_plus] at h
    simp only [Atom.test_byte] at h
    by_cases e1 : p = 40
    · by_cases e2 : clsDigit.test d = true
      · by_cases e3 : q = 41
        · by_cases e4 : s₁ = 32
          · by_cases e5 : h₁ = 45
            · by_cases e6 : h₂ = 45
              · by_cases e7 : s₂ = 32
                · by_cases e8 : Atom.notNL.test z = true
                  · subst e1 e3 e4 e5 e6 e7
                    exact ⟨d, z, u, (clsDigit_test d).1 e2, (notNL_test z).1 e8, rfl⟩
                  · simp [e1, e2, e3, e4, e5, e6, e7, e8] at h
                · simp [e1, e2, e3, e4, e5, e6, e7] at h
              · simp [e1, e2, e3, e4, e5, e6] at h
            · simp [e1, e2, e3, e4, e5] at h
          · simp [e1, e2, e3, e4] at h
        · simp [e1, e2, e3] at h
      · simp [e1, e2] at h
    · simp [e1] at h

theorem titleRe_minLen : 0 < titleRe.minLen := by decide

theorem takeWhile_dropWhile_all (p : Byte → Bool) :
    ∀ l : List Byte, (∀ y ∈ l, p y = true) → l.takeWhile p = l ∧ l.dropWhile p = [] := by
  intro l
  induction l with
  | nil => intro _; simp
  | cons y l ih =>
    intro h
    have hy : p y = true := h y (by simp)
    have := ih (fun z hz => h z (by simp [hz]))
    simp [List.takeWhile, List.dropWhile, hy, this]

/-- The title pattern matches a whole line of the form `NAME(N) -- TITLE`,
and the three groups are its three parts. -/
theorem titleRe_matchAt_title {c y d z : Byte} {name title : List Byte}
    (hc : IsLetter c) (hy : IsNameChar y) (hname : ∀ x ∈ name, IsNameChar x) (hd : IsDigit d)
    (hz : z ≠ 10) (htitle : ∀ x ∈ title, x ≠ 10) :
    titleRe.matchAt (c :: y :: (name ++ 40 :: d :: 41 :: 32 :: 45 :: 45 :: 32 :: z :: title))
      = some ⟨c :: y :: (name ++ 40 :: d :: 41 :: 32 :: 45 :: 45 :: 32 :: z :: title), [],
          [c :: y :: name, [d], z :: title]⟩ := by
  have h₁ := takeWhile_dropWhile_append_cons clsName.test 40
    (d :: 41 :: 32 :: 45 :: 45 :: 32 :: z :: title) (by decide) name
    (fun x hx => (clsName_test x).2 (hname x hx))
  have h₂ := takeWhile_dropWhile_all Atom.notNL.test title
    (fun x hx => (notNL_test x).2 (htitle x hx))
  unfold Re.matchAt titleRe
  rw [matches_cat_group_one_plus, if_pos ⟨(clsAlpha_test c).2 hc, (clsName_test y).2 hy⟩,
    starMatches_flatMap_next clsName 40 (by decide)]
  · rw [h₁.1, h₁.2]
    simp only [List.head?_cons, if_true]
    rw [titleTail_matches_intro title hd hz, List.map_map, List.head?_map, starMatches_head,
      h₂.1, h₂.2]
    simp
  · intro m hm
    rw [titleTail_matches_of_head hm]
    rfl

/-- Wherever the title pattern matches, the input starts with a name of two
or more bytes, `(d) -- ` and a byte other than newline. -/
theorem titleRe_matchAt_some {s : List Byte} {m : Match} (h : titleRe.matchAt s = some m) :
    ∃ c y name d z u, IsLetter c ∧ IsNameChar y ∧ (∀ x ∈ name, IsNameChar x) ∧ IsDigit d ∧
      z ≠ 10 ∧ s = c :: y :: (name ++ 40 :: d :: 41 :: 32 :: 45 :: 45 :: 32 :: z :: u) := by
  unfold Re.matchAt titleRe at h
  match s with
  | [] => rw [matches_cat_group_one_plus_short _ _ _ _ (by simp)] at h; cases h
  | [_] => rw [matches_cat_group_one_plus_short _ _ _ _ (by simp)] at h; cases h
  | c :: y :: t =>
    rw [matches_cat_group_one_plus] at h
    split at h
    · rename_i hcy
      rw [starMatches_flatMap_next clsName 40 (by decide)] at h
      · split at h
        · rename_i h40
          have hne : titleTail.matches (t.dropWhile clsName.test) ≠ [] := by
            intro e
            rw [e] at h
            cases h
          obtain ⟨d, z, u, hd, hz, hs⟩ := titleTail_matches_elim hne
          refine ⟨c, y, t.takeWhile clsName.test, d, z, u, (clsAlpha_test c).1 hcy.1,
            (clsName_test y).1 hcy.2, ?_, hd, hz, ?_⟩
          · intro x hx
            exact (clsName_test x).1 (List.mem_takeWhile_imp hx)
          · rw [← hs, List.takeWhile_append_dropWhile]
        · cases h
      · intro m hm
        rw [titleTail_matches_of_head hm]
        rfl
    · cases h

theorem escape_headingEscape (s : List Byte) : escape s headingEscape = quoteEscaped s := by
  unfold headingEscape quoteEscaped
  rw [escape_one]
  congr 1
  funext c
  have : (Atom.cls [(34, 34)]).test c = true ↔ c = 34 := by
    simp only [Atom.test, List.any_cons, List.any_nil, Bool.or_false, Bool.and_eq_true,
      decide_eq_true_eq]
    exact ⟨fun h => Nat.le_antisymm h.2 h.1, fun h => by subst h; exact ⟨Nat.le_refl _, Nat.le_refl _⟩⟩
  by_cases h : c = 34
  · rw [if_pos (this.2 h), if_pos h]
  · rw [if_neg (fun h' => h (this.1 h')), if_neg h]

theorem escape_roffEscape (s : List Byte) : escape s roffEscape = roffEscaped s := by
  unfold roffEscape roffEscaped
  rw [escape_one]
  congr 1
  funext c
  have : (Atom.cls [(38, 38), (126, 126), (95, 95), (45, 45)]).test c = true ↔ IsRoffMeta c := by
    simp only [Atom.test, List.any_cons, List.any_nil, Bool.or_false, Bool.or_eq_true,
      Bool.and_eq_true, decide_eq_true_eq, IsRoffMeta]
    have key : ∀ n : Nat, (38 ≤ n ∧ n ≤ 38 ∨ 126 ≤ n ∧ n ≤ 126 ∨ 95 ≤ n ∧ n ≤ 95 ∨ 45 ≤ n ∧ n ≤ 45)
        ↔ (n = 38 ∨ n = 126 ∨ n = 95 ∨ n = 45) := by
      intro n; omega
    exact key c
  by_cases h : IsRoffMeta c
  · rw [if_pos (this.2 h), if_pos h]
  · rw [if_neg (fun h' => h (this.1 h')), if_neg h]

theorem quoteEscaped_of_no_quote (s : List Byte) (h : ∀ x ∈ s, x ≠ 34) : quoteEscaped s = s := by
  unfold quoteEscaped
  induction s with
  | nil => rfl
  | cons x t ih =>
    have hx : x ≠ 34 := h x (by simp)
    have := ih (fun z hz => h z (by simp [hz]))
    simp only [List.flatMap_cons, if_neg hx, this]
    rfl

theorem isNameChar_ne_quote {x : Byte} (h : IsNameChar x) : x ≠ 34 := by
  intro e; subst e; revert h; decide

theorem isLetter_isNameChar {x : Byte} (h : IsLetter x) : IsNameChar x := Or.inl h

/-- The title search finds a title that starts the text. -/
theorem findAllSubmatch1_title {name desc : List Byte} {n : Byte} (hname : IsTitleName name)
    (hn : IsDigit n) (hdesc : desc ≠ []) (hnl : ∀ x ∈ desc, x ≠ 10) :
    findAllSubmatch1 titleRe (name ++ bytes "(" ++ [n] ++ bytes ") -- " ++ desc)
      = some [name ++ bytes "(" ++ [n] ++ bytes ") -- " ++ desc, name, [n], desc] := by
  obtain ⟨c, y, nm, rfl, hc, hy, hnm⟩ := hname
  cases desc with
  | nil => exact absurd rfl hdesc
  | cons z title =>
    have hz : z ≠ 10 := hnl z (by simp)
    have ht : ∀ x ∈ title, x ≠ 10 := fun x hx => hnl x (by simp [hx])
    have e : c :: y :: nm ++ bytes "(" ++ [n] ++ bytes ") -- " ++ z :: title
        = c :: y :: (nm ++ 40 :: n :: 41 :: 32 :: 45 :: 45 :: 32 :: z :: title) := by
      simp [bytes]
    unfold findAllSubmatch1
    rw [e, Re.find_of_matchAt (titleRe_matchAt_title hc hy hnm hn hz ht)]
    rfl

/-- Without a title anywhere in the text the title search finds nothing. -/
theorem findAllSubmatch1_none {s : List Byte} (h : ¬ HasTitle s) :
    findAllSubmatch1 titleRe s = none := by
  unfold findAllSubmatch1
  rw [Re.find_eq_none]
  · rfl
  · intro u v e
    cases hm : titleRe.matchAt v with
    | none => rfl
    | some m =>
      exfalso
      obtain ⟨c, y, name, d, z, w, hc, hy, hname, hd, hz, hv⟩ := titleRe_matchAt_some hm
      exact h ⟨u, c :: y :: name, d, z, w, ⟨c, y, name, rfl, hc, hy, hname⟩, hd, hz,
        by rw [e, hv]; simp⟩

/-- C1: on a level-1 heading whose flattened text is exactly
`NAME(N) -- DESCRIPTION` (NAME a letter followed by one or more letters,
digits, underscores or hyphens, N one digit, DESCRIPTION non-empty and free of
newlines), `renderHeading` writes `.TH "NAME" "N" "<date>" "<version>"
"<DESCRIPTION>"` and a newline, then `.nh` and `.ad l`, each with a newline;
the fields come in the order name, section, date, version, description, and
every double quote of the date, the version and the description has a
backslash before it. -/
theorem renderHeading_title_block (node : Node) (date version name desc : List Byte) (n : Byte)
    (hlevel : node.level = 1) (hname : IsTitleName name) (hn : IsDigit n) (hdesc : desc ≠ [])
    (hnl : ∀ x ∈ desc, x ≠ 10)
    (htext : textContent node = name ++ bytes "(" ++ [n] ++ bytes ") -- " ++ desc) :
    renderHeading node date version
      = bytes ".TH \"" ++ name ++ bytes "\" \"" ++ [n] ++ bytes "\" \"" ++ quoteEscaped date
        ++ bytes "\" \"" ++ quoteEscaped version ++ bytes "\" \"" ++ quoteEscaped desc
        ++ bytes "\"\n" ++ bytes ".nh\n" ++ bytes ".ad l\n" := by
  have hq : quoteEscaped name = name := by
    apply quoteEscaped_of_no_quote
    obtain ⟨c, y, nm, rfl, hc, hy, hnm⟩ := hname
    intro x hx
    simp only [List.mem_cons] at hx
    rcases hx with rfl | rfl | hx
    · exact isNameChar_ne_quote (isLetter_isNameChar hc)
    · exact isNameChar_ne_quote hy
    · exact isNameChar_ne_quote (hnm x hx)
  unfold renderHeading
  simp only [hlevel, if_true, htext, findAllSubmatch1_title hname hn hdesc hnl,
    escape_headingEscape, List.getD_cons_succ, List.getD_cons_zero, hq]

theorem renderHeading_title_block_witness :
    (headingNode 1 "mytool(1) -- does a thing").level = 1 ∧
    IsTitleName (bytes "mytool") ∧ IsDigit 49 ∧
    textContent (headingNode 1 "mytool(1) -- does a thing")
      = bytes "mytool" ++ bytes "(" ++ [49] ++ bytes ") -- " ++ bytes "does a thing" ∧
    renderHeading (headingNode 1 "mytool(1) -- does a thing") (bytes "Jan 5, 1984")
        (bytes "Hub v2.4.0")
      = bytes ".TH \"mytool\" \"1\" \"Jan 5, 1984\" \"Hub v2.4.0\" \"does a thing\"\n.nh\n.ad l\n" :=
  ⟨rfl, ⟨109, 121, bytes "tool", rfl, by decide, by decide, by decide⟩, by decide, by decide,
    (renderHeading_title_block (headingNode 1 "mytool(1) -- does a thing") (bytes "Jan 5, 1984")
      (bytes "Hub v2.4.0") (bytes "mytool") (bytes "does a thing") 49 rfl
      ⟨109, 121, bytes "tool", rfl, by decide, by decide, by decide⟩ (by decide) (by decide)
      (by decide) (by decide)).trans (by decide)⟩

/-- C2, as amended: on a level-1 heading whose flattened text holds no title
anywhere (no NAME of a letter and one or more letters, digits, underscores or
hyphens that is followed by `(N) -- ` with one digit N and by a byte other
than newline), `renderHeading` writes the title block with empty name, empty
section and the whole flattened text, quote-escaped, as the description. -/
theorem renderHeading_no_title (node : Node) (date version : List Byte)
    (hlevel : node.level = 1) (htext : ¬ HasTitle (textContent node)) :
    renderHeading node date version
      = bytes ".TH \"\" \"\" \"" ++ quoteEscaped date ++ bytes "\" \"" ++ quoteEscaped version
        ++ bytes "\" \"" ++ quoteEscaped (textContent node) ++ bytes "\"\n" ++ bytes ".nh\n"
        ++ bytes ".ad l\n" := by
  unfold renderHeading
  simp only [hlevel, if_true, findAllSubmatch1_none htext, escape_headingEscape]
  simp [bytes, quoteEscaped]

theorem not_hasTitle_just_a_title : ¬ HasTitle (bytes "Just a title") := by
  rintro ⟨u, name, n, z, v, -, -, -, h⟩
  have hmem : (40 : Byte) ∈ bytes "Just a title" := by
    rw [h]; simp
  revert hmem
  decide

theorem renderHeading_no_title_witness :
    (headingNode 1 "Just a title").level = 1 ∧
    ¬ HasTitle (textContent (headingNode 1 "Just a title")) ∧
    renderHeading (headingNode 1 "Just a title") (bytes "Jan 5, 1984") (bytes "Hub v2.4.0")
      = bytes ".TH \"\" \"\" \"Jan 5, 1984\" \"Hub v2.4.0\" \"Just a title\"\n.nh\n.ad l\n" :=
  ⟨rfl, not_hasTitle_just_a_title,
    (renderHeading_no_title (headingNode 1 "Just a title") (bytes "Jan 5, 1984")
      (bytes "Hub v2.4.0") rfl not_hasTitle_just_a_title).trans (by decide)⟩

/-- C2 fails as stated: the flattened text `x ab(1) -- c` does not follow the
form `NAME(N) -- DESCRIPTION`, yet `renderHeading` finds the title `ab(1) -- c`
inside it and writes name `ab`, section `1` and description `c`, not the
empty name and section with the whole text. -/
theorem renderHeading_title_inside_text :
    ¬ FollowsTitleForm (textContent (headingNode 1 "x ab(1) -- c")) ∧
    renderHeading (headingNode 1 "x ab(1) -- c") (bytes "Jan 5, 1984") (bytes "Hub v2.4.0")
      = bytes ".TH \"ab\" \"1\" \"Jan 5, 1984\" \"Hub v2.4.0\" \"c\"\n.nh\n.ad l\n" ∧
    renderHeading (headingNode 1 "x ab(1) -- c") (bytes "Jan 5, 1984") (bytes "Hub v2.4.0")
      ≠ bytes ".TH \"\" \"\" \"Jan 5, 1984\" \"Hub v2.4.0\" \"x ab(1) -- c\"\n.nh\n.ad l\n" := by
  refine ⟨?_, by decide, by decide⟩
  rintro ⟨name, n, desc, ⟨c, nm, rfl, -, hnm⟩, -, h⟩
  have ht : textContent (headingNode 1 "x ab(1) -- c") = bytes "x ab(1) -- c" := by decide
  rw [ht] at h
  match nm, hnm, h with
  | [], _, h => revert h; simp [bytes]
  | y :: nm, hnm, h =>
    have hy : IsNameChar y := hnm y (by simp)
    have e : y = 32 := by
      simp [bytes] at h
      exact h.2.1.symm
    subst e
    revert hy
    decide

/-- C9: for a heading of level 2 (of level 3) with flattened text T,
`renderHeading` writes `.SH "E"` (`.SS "E"`) and a newline, where E is T with
a backslash before every double quote and every other byte unchanged; so a T
without double quotes is written as it is, its roff metacharacters `&`, `~`,
`_`, `-` included. -/
theorem renderHeading_section (node : Node) (date version : List Byte)
    (hlevel : node.level = 2 ∨ node.level = 3) :
    renderHeading node date version
      = (if node.level = 2 then bytes ".SH" else bytes ".SS") ++ bytes " \""
        ++ quoteEscaped (textContent node) ++ bytes "\"\n"
    ∧ ((∀ x ∈ textContent node, x ≠ 34) →
        renderHeading node date version
          = (if node.level = 2 then bytes ".SH" else bytes ".SS") ++ bytes " \""
            ++ textContent node ++ bytes "\"\n") := by
  have h1 : node.level ≠ 1 := by
    rcases hlevel with h | h <;> rw [h] <;> decide
  have key : renderHeading node date version
      = (if node.level = 2 then bytes ".SH" else bytes ".SS") ++ bytes " \""
        ++ quoteEscaped (textContent node) ++ bytes "\"\n" := by
    unfold renderHeading
    simp only [if_neg h1, if_pos hlevel, escape_headingEscape]
  refine ⟨key, fun hq => ?_⟩
  rw [key, quoteEscaped_of_no_quote _ hq]

theorem renderHeading_section_witness :
    renderHeading (headingNode 2 "A \"b\" c-d_e") (bytes "Jan 5, 1984") (bytes "Hub v2.4.0")
      = bytes ".SH \"A \\\"b\\\" c-d_e\"\n"
    ∧ renderHeading (headingNode 3 "x&y~z") (bytes "Jan 5, 1984") (bytes "Hub v2.4.0")
      = bytes ".SS \"x&y~z\"\n" :=
  ⟨((renderHeading_section (headingNode 2 "A \"b\" c-d_e") (bytes "Jan 5, 1984")
      (bytes "Hub v2.4.0") (Or.inl rfl)).1).trans (by decide),
   ((renderHeading_section (headingNode 3 "x&y~z") (bytes "Jan 5, 1984")
      (bytes "Hub v2.4.0") (Or.inr rfl)).2 (by decide)).trans (by decide)⟩

/-- C10: for a Heading node whose level is not 1, 2 or 3, `renderHeading`
writes nothing, `RenderNode` does not fail, writes nothing and returns
`SkipChildren`, and the walk of the heading's subtree writes nothing at all
and leaves the renderer as it was. -/
theorem heading_other_level_silent (r : RoffRenderer) (parent : Option NodeType) (node : Node)
    (htype : node.type = .Heading)
    (hlevel : node.level ≠ 1 ∧ node.level ≠ 2 ∧ node.level ≠ 3) :
    renderHeading node r.Date r.Version = []
    ∧ RenderNode r node parent true = some (r, [], .SkipChildren)
    ∧ renderWalk r parent node = some (r, []) := by
  have h1 : renderHeading node r.Date r.Version = [] := by
    unfold renderHeading
    rw [if_neg hlevel.1, if_neg (fun h => h.elim hlevel.2.1 hlevel.2.2)]
  have h2 : RenderNode r node parent true = some (r, [], .SkipChildren) := by
    simp [RenderNode, enterSwitch, htype, h1]
  refine ⟨h1, h2, ?_⟩
  obtain ⟨t, l, n, cs⟩ := node
  simp only [renderWalk, walkNode, roffVisit, h2, List.append_nil]

theorem heading_other_level_silent_witness :
    (headingNode 4 "deep").type = .Heading ∧
    renderHeading (headingNode 4 "deep") hubRenderer.Date hubRenderer.Version = []
    ∧ RenderNode hubRenderer (headingNode 4 "deep") (some .Document) true
      = some (hubRenderer, [], .SkipChildren)
    ∧ renderWalk hubRenderer (some .Document) (headingNode 4 "deep") = some (hubRenderer, []) :=
  ⟨rfl, heading_other_level_silent hubRenderer (some .Document) (headingNode 4 "deep") rfl
    ⟨by decide, by decide, by decide⟩⟩

/-! ## The walk with `RenderNode` -/

theorem roffVisit_eq (r : RoffRenderer) (buf : List Byte) (node : Node)
    (parent : Option NodeType) (entering : Bool) :
    roffVisit (r, buf) node parent entering
      = match RenderNode r node parent entering with
        | none => none
        | some (r₁, out, status) => some ((r₁, buf ++ out), status) := rfl

theorem enterSwitch_plain (node : Node) (p : NodeType) (h₁ : node.type ≠ .List)
    (h₂ : node.type ≠ .Item) (date version : List Byte) :
    ∃ out ret, ∀ k, enterSwitch ⟨version, date, k⟩ node (some p)
      = some ⟨⟨version, date, k⟩, out, ret⟩ := by
  obtain ⟨t, l, n, cs⟩ := node
  simp only [Node.type] at h₁ h₂
  cases t
  case List => exact absurd rfl h₁
  case Item => exact absurd rfl h₂
  case Paragraph =>
    by_cases hp : p = .Item
    · exact ⟨[], false, fun k => by simp [enterSwitch, Node.type, hp]⟩
    · exact ⟨bytes ".PP\n", false, fun k => by simp [enterSwitch, Node.type, hp]⟩
  all_goals exact ⟨_, _, fun k => by simp only [enterSwitch, Node.type]; rfl⟩

theorem exitSwitch_plain (node : Node) (h₂ : node.type ≠ .Item) (leaf : Bool)
    (r r₁ : RoffRenderer) : exitSwitch r node leaf = exitSwitch r₁ node leaf := by
  obtain ⟨t, l, n, cs⟩ := node
  simp only [Node.type] at h₂
  cases t
  case Item => exact absurd rfl h₂
  all_goals rfl

/-- On a node that is neither a List nor an Item and has a parent,
`RenderNode` succeeds, leaves the renderer as it is, does not ask to stop, and
writes bytes that do not depend on the item index. -/
theorem RenderNode_plain (node : Node) (p : NodeType) (entering : Bool)
    (h₁ : node.type ≠ .List) (h₂ : node.type ≠ .Item) (date version : List Byte) :
    ∃ out status, status ≠ WalkStatus.Terminate ∧
      ∀ k, RenderNode ⟨version, date, k⟩ node (some p) entering
        = some (⟨version, date, k⟩, out, status) := by
  cases entering with
  | false =>
    refine ⟨(if decide (node.literal.length > 0) then escape node.literal roffEscape else [])
      ++ exitSwitch ⟨version, date, 0⟩ node (decide (node.literal.length > 0)),
      .GoToNext, by simp, fun k => ?_⟩
    simp only [RenderNode, Bool.false_eq_true, if_false, Bool.not_false, Bool.true_or, if_true]
    rw [exitSwitch_plain node h₂ _ _ ⟨version, date, 0⟩]
    split <;> simp
  | true =>
    obtain ⟨out, ret, h⟩ := enterSwitch_plain node p h₁ h₂ date version
    cases ret with
    | true =>
      refine ⟨out, .SkipChildren, by simp, fun k => ?_⟩
      simp only [RenderNode, if_true, h k]
    | false =>
      refine ⟨if (!true || decide (node.literal.length > 0)) = true then
          (if decide (node.literal.length > 0) = true then out ++ escape node.literal roffEscape
            else out) ++ exitSwitch ⟨version, date, 0⟩ node (decide (node.literal.length > 0))
          else if decide (node.literal.length > 0) = true then
            out ++ escape node.literal roffEscape else out,
        .GoToNext, by simp, fun k => ?_⟩
      simp only [RenderNode, if_true, h k]
      rw [exitSwitch_plain node h₂ _ _ ⟨version, date, 0⟩]

theorem flat_mk {t : NodeType} {l : List Byte} {n : Int} {cs : List Node}
    (h : (Node.mk t l n cs).flat = true) : t ≠ .List ∧ t ≠ .Item ∧ flatList cs = true := by
  simp only [Node.flat, Bool.and_eq_true, bne_iff_ne, ne_eq] at h
  exact ⟨h.1.1, h.1.2, h.2⟩

theorem flatList_cons {c : Node} {cs : List Node} (h : flatList (c :: cs) = true) :
    c.flat = true ∧ flatList cs = true := by
  simpa [flatList] using h

mutual
/-- The walk of a subtree without List and Item nodes succeeds, leaves the
renderer as it is and appends bytes that do not depend on the item index. -/
theorem walkNode_flat (date version : List Byte) :
    ∀ (node : Node) (p : NodeType), node.flat = true →
      ∃ out, ∀ (k : Nat) (buf : List Byte),
        walkNode roffVisit (some p) node (⟨version, date, k⟩, buf)
          = some ⟨(⟨version, date, k⟩, buf ++ out), false⟩
  | .mk t l n cs, p, h => by
    obtain ⟨h₁, h₂, h₃⟩ := flat_mk h
    obtain ⟨o₁, st₁, hst₁, e₁⟩ := RenderNode_plain (.mk t l n cs) p true h₁ h₂ date version
    obtain ⟨o₃, st₃, hst₃, e₃⟩ := RenderNode_plain (.mk t l n cs) p false h₁ h₂ date version
    obtain ⟨o₂, e₂⟩ := walkChildren_flat date version cs t h₃
    cases st₁ with
    | Terminate => exact absurd rfl hst₁
    | SkipChildren =>
      exact ⟨o₁, fun k buf => by simp only [walkNode, roffVisit_eq, e₁ k]⟩
    | GoToNext =>
      by_cases hc : isContainer t = true
      · refine ⟨o₁ ++ o₂ ++ o₃, fun k buf => ?_⟩
        cases st₃ with
        | Terminate => exact absurd rfl hst₃
        | SkipChildren =>
          simp only [walkNode, roffVisit_eq, e₁ k, hc, if_true, e₂ k, e₃ k, List.append_assoc]
        | GoToNext =>
          simp only [walkNode, roffVisit_eq, e₁ k, hc, if_true, e₂ k, e₃ k, List.append_assoc]
      · exact ⟨o₁, fun k buf => by simp [walkNode, roffVisit_eq, e₁ k, hc]⟩
/-- The same for the children of a container. -/
theorem walkChildren_flat (date version : List Byte) :
    ∀ (cs : List Node) (p : NodeType), flatList cs = true →
      ∃ out, ∀ (k : Nat) (buf : List Byte),
        walkChildren roffVisit (some p) cs (⟨version, date, k⟩, buf)
          = some ⟨(⟨version, date, k⟩, buf ++ out), false⟩
  | [], p, _ => ⟨[], fun k buf => by simp [walkChildren]⟩
  | c :: cs, p, h => by
    obtain ⟨o₁, h₁⟩ := walkNode_flat date version c p (flatList_cons h).1
    obtain ⟨o₂, h₂⟩ := walkChildren_flat date version cs p (flatList_cons h).2
    exact ⟨o₁ ++ o₂, fun k buf => by simp only [walkChildren, h₁ k, h₂ k, List.append_assoc]⟩
end

theorem walkChildren_flat_eq (r r₁ : RoffRenderer) (hV : r₁.Version = r.Version)
    (hD : r₁.Date = r.Date) (p : NodeType) (cs : List Node) (h : flatList cs = true)
    (buf : List Byte) :
    walkChildren roffVisit (some p) cs (r, buf)
      = some ⟨(r, buf ++ renderChildren r₁ p cs), false⟩ := by
  obtain ⟨out, e⟩ := walkChildren_flat r.Date r.Version cs p h
  obtain ⟨v, d, k⟩ := r
  obtain ⟨v₁, d₁, k₁⟩ := r₁
  simp only at hV hD e
  subst hV hD
  have : renderChildren ⟨v₁, d₁, k₁⟩ p cs = out := by
    simp [renderChildren, e k₁ []]
  rw [this, e k buf]

/-- The walk of a plain item: the opening markup chosen by the parity of the
item index, the content, and the closing markup chosen by the parity of the
incremented index. -/
theorem walkNode_plainItem (r r₁ : RoffRenderer) (hV : r₁.Version = r.Version)
    (hD : r₁.Date = r.Date) (parent : Option NodeType) (it : Node) (h : IsPlainItem it)
    (buf : List Byte) :
    walkNode roffVisit parent it (r, buf)
      = some ⟨({ r with itemIndex := r.itemIndex + 1 },
          buf ++ ((if r.itemIndex % 2 = 0 then bytes ".PP\n" else bytes ".RS 4\n")
            ++ renderChildren r₁ .Item it.children
            ++ (if (r.itemIndex + 1) % 2 = 0 then bytes ".RE\n" else []))), false⟩ := by
  obtain ⟨t, l, n, cs⟩ := it
  obtain ⟨ht, hl, hf⟩ := h
  simp only [Node.type, Node.literal, Node.children] at ht hl hf
  subst ht hl
  have e₁ : RenderNode r (.mk .Item [] n cs) parent true
      = some ({ r with itemIndex := r.itemIndex + 1 },
          (if r.itemIndex % 2 = 0 then bytes ".PP\n" else bytes ".RS 4\n"), .GoToNext) := by
    simp [RenderNode, enterSwitch, Node.type, Node.literal]
  have e₃ : RenderNode { r with itemIndex := r.itemIndex + 1 } (.mk .Item [] n cs) parent false
      = some ({ r with itemIndex := r.itemIndex + 1 },
          (if (r.itemIndex + 1) % 2 = 0 then bytes ".RE\n" else []), .GoToNext) := by
    simp [RenderNode, exitSwitch, Node.type, Node.literal]
  have e₂ := walkChildren_flat_eq { r with itemIndex := r.itemIndex + 1 } r₁ hV hD .Item cs hf
  simp only [walkNode, roffVisit_eq, e₁, isContainer, if_true, e₂, e₃, List.append_assoc,
    Node.children]

theorem walkChildren_plainItems (r₁ : RoffRenderer) :
    ∀ (items : List Node) (r : RoffRenderer) (buf : List Byte),
      r₁.Version = r.Version → r₁.Date = r.Date → (∀ it ∈ items, IsPlainItem it) →
      walkChildren roffVisit (some .List) items (r, buf)
        = some ⟨({ r with itemIndex := r.itemIndex + items.length },
            buf ++ itemsMarkup r₁ (r.itemIndex + 1) items), false⟩ := by
  intro items
  induction items with
  | nil => intro r buf _ _ _; simp [walkChildren, itemsMarkup]
  | cons it its ih =>
    intro r buf hV hD h
    have h₁ := walkNode_plainItem r r₁ hV hD (some .List) it (h it (by simp)) buf
    have h₂ := ih { r with itemIndex := r.itemIndex + 1 }
      (buf ++ ((if r.itemIndex % 2 = 0 then bytes ".PP\n" else bytes ".RS 4\n")
            ++ renderChildren r₁ .Item it.children
            ++ (if (r.itemIndex + 1) % 2 = 0 then bytes ".RE\n" else []))) hV hD
      (fun x hx => h x (by simp [hx]))
    simp only [walkChildren, h₁, h₂, itemsMarkup, List.length_cons]
    have hk : (r.itemIndex + 1) % 2 = 1 ↔ r.itemIndex % 2 = 0 := by omega
    by_cases hp : r.itemIndex % 2 = 0
    · have hq : ¬ (r.itemIndex + 1) % 2 = 0 := by omega
      simp [hp, hq, hk.2 hp, Nat.add_assoc, Nat.add_comm 1]
    · have hq : (r.itemIndex + 1) % 2 = 0 := by omega
      have hk' : ¬ (r.itemIndex + 1) % 2 = 1 := by omega
      simp [hp, hq, hk', Nat.add_assoc, Nat.add_comm 1]

/-- C3: walking a List node whose items hold no nested list (`IsPlainItem`)
writes, for the k-th item counted from 1: `.PP` and a newline on entering and
nothing on leaving when k is odd, `.RS 4` and a newline on entering and `.RE`
and a newline on leaving when k is even, with the item's content in between
(`itemsMarkup`); the List node itself adds the newline of its exit.  The walk
succeeds and leaves the item index at the number of items. -/
theorem flat_list_alternation (r : RoffRenderer) (parent : Option NodeType) (n : Int)
    (items : List Node) (hitems : ∀ it ∈ items, IsPlainItem it) :
    renderWalk r parent (.mk .List [] n items)
      = some ({ r with itemIndex := items.length }, itemsMarkup r 1 items ++ bytes "\n") := by
  have e₁ : RenderNode r (.mk .List [] n items) parent true
      = some ({ r with itemIndex := 0 }, [], .GoToNext) := by
    simp [RenderNode, enterSwitch, Node.type, Node.literal]
  have e₂ := walkChildren_plainItems r items { r with itemIndex := 0 } [] rfl rfl hitems
  have e₃ : RenderNode { r with itemIndex := 0 + items.length } (.mk .List [] n items) parent false
      = some ({ r with itemIndex := 0 + items.length }, bytes "\n", .GoToNext) := by
    simp [RenderNode, exitSwitch, Node.type, Node.literal]
  simp only [List.nil_append, Nat.zero_add] at e₂ e₃
  simp only [renderWalk, walkNode, roffVisit_eq, e₁, isContainer, if_true, e₂, e₃,
    List.nil_append]

theorem flat_list_alternation_witness :
    (∀ it ∈ [itemNode "I1", itemNode "I2", itemNode "I3", itemNode "I4"], IsPlainItem it) ∧
    renderWalk hubRenderer (some .Document)
        (.mk .List [] 0 [itemNode "I1", itemNode "I2", itemNode "I3", itemNode "I4"])
      = some ({ hubRenderer with itemIndex := 4 },
          bytes ".PP\nI1\n.RS 4\nI2\n.RE\n.PP\nI3\n.RS 4\nI4\n.RE\n\n") :=
  ⟨by
      intro it hit
      simp only [List.mem_cons, List.mem_singleton, List.not_mem_nil, or_false] at hit
      rcases hit with rfl | rfl | rfl | rfl <;> exact ⟨rfl, rfl, rfl⟩,
    (flat_list_alternation hubRenderer (some .Document) 0
      [itemNode "I1", itemNode "I2", itemNode "I3", itemNode "I4"] (by
        intro it hit
        simp only [List.mem_cons, List.mem_singleton, List.not_mem_nil, or_false] at hit
        rcases hit with rfl | rfl | rfl | rfl <;> exact ⟨rfl, rfl, rfl⟩)).trans (by decide)⟩

/-- C4 at a list whose first item holds a nested list of two items: the
nested list leaves the item index at 2, so on leaving the first outer item
`RenderNode` writes `.RE` although it opened that item with `.PP`, and it
opens the second outer item with `.PP` instead of `.RS 4` and closes it with
nothing.  The same list without the nested list gets `.PP`, then `.RS 4` and
`.RE`. -/
theorem nested_list_breaks_item_markup :
    renderWalk hubRenderer (some .Document)
        (.mk .List [] 0
          [.mk .Item [] 0 [.mk .Paragraph [] 0 [textNode "a"],
              .mk .List [] 0 [itemNode "b", itemNode "c"]],
            itemNode "d"])
      = some ({ hubRenderer with itemIndex := 3 },
          bytes ".PP\na\n.PP\nb\n.RS 4\nc\n.RE\n\n.RE\n.PP\nd\n\n")
    ∧ renderWalk hubRenderer (some .Document)
        (.mk .List [] 0 [.mk .Item [] 0 [.mk .Paragraph [] 0 [textNode "a"]], itemNode "d"])
      = some ({ hubRenderer with itemIndex := 2 }, bytes ".PP\na\n.RS 4\nd\n.RE\n\n") := by
  constructor <;> decide!

theorem length_roffEscaped (s : List Byte) :
    (roffEscaped s).length = s.length + s.countP fun c => decide (IsRoffMeta c) := by
  unfold roffEscaped
  induction s with
  | nil => rfl
  | cons x t ih =>
    by_cases hx : IsRoffMeta x
    · simp only [List.flatMap_cons, if_pos hx, List.length_append, ih, List.length_cons,
        List.length_nil, List.countP_cons, hx, decide_True, if_true]
      omega
    · simp only [List.flatMap_cons, if_neg hx, List.length_append, ih, List.length_cons,
        List.length_nil, List.countP_cons, hx, decide_False]
      simp
      omega

theorem enterSwitch_not_heading (r : RoffRenderer) (node : Node) (parent : Option NodeType)
    (htype : node.type ≠ .Heading) (hparent : node.type = .Paragraph → parent ≠ none) :
    ∃ r₁ pre, enterSwitch r node parent = some ⟨r₁, pre, false⟩ := by
  obtain ⟨t, l, n, cs⟩ := node
  simp only [Node.type] at htype hparent
  cases t
  case Heading => exact absurd rfl htype
  case Paragraph =>
    cases parent with
    | none => exact absurd rfl (hparent rfl)
    | some p =>
      by_cases hp : p = .Item
      · exact ⟨r, [], by simp [enterSwitch, Node.type, hp]⟩
      · exact ⟨r, bytes ".PP\n", by simp [enterSwitch, Node.type, hp]⟩
  all_goals exact ⟨_, _, by simp only [enterSwitch, Node.type]; rfl⟩

/-- For every node other than a Heading that carries a non-empty literal (a
Paragraph being given with its parent), `RenderNode` (entering) writes the
markup of the first switch, the escaped literal and the markup of the second
switch. -/
theorem RenderNode_literal_of_not_heading (r : RoffRenderer) (node : Node)
    (parent : Option NodeType) (hlit : node.literal ≠ []) (htype : node.type ≠ .Heading)
    (hparent : node.type = .Paragraph → parent ≠ none) :
    ∃ r₁ pre, enterSwitch r node parent = some ⟨r₁, pre, false⟩ ∧
      RenderNode r node parent true
        = some (r₁, pre ++ roffEscaped node.literal ++ exitSwitch r₁ node true, .GoToNext) := by
  have hleaf : decide (node.literal.length > 0) = true := by
    simpa [List.length_pos] using hlit
  obtain ⟨r₁, pre, he⟩ := enterSwitch_not_heading r node parent htype hparent
  refine ⟨r₁, pre, he, ?_⟩
  simp only [RenderNode, if_true, he, hleaf, Bool.or_true, escape_roffEscape]

theorem enterSwitch_leaf (r : RoffRenderer) (node : Node) (parent : Option NodeType)
    (hleaf : isContainer node.type = false) :
    ∃ pre, enterSwitch r node parent = some ⟨r, pre, false⟩ := by
  obtain ⟨t, l, n, cs⟩ := node
  simp only [Node.type] at hleaf
  cases t <;> first
    | (exfalso; revert hleaf; decide)
    | exact ⟨_, by simp only [enterSwitch, Node.type]; rfl⟩

/-- C5: for every node carrying non-empty literal text (a node of a leaf
kind: the AST carries literals on the kinds that are not containers),
`RenderNode` (entering) writes the node's enter markup, then the literal with
exactly one backslash put before each `&`, `~`, `_` and `-` and every other
byte unchanged and in order (its length is the literal's length plus the
number of these bytes), then the node's exit markup, and leaves the renderer
as it is; for a Text node the whole output is that escaped literal. -/
theorem renderNode_literal_escaped (r : RoffRenderer) (node : Node) (parent : Option NodeType)
    (hlit : node.literal ≠ []) (hkind : isContainer node.type = false) :
    (∃ pre, enterSwitch r node parent = some ⟨r, pre, false⟩ ∧
      RenderNode r node parent true
        = some (r, pre ++ roffEscaped node.literal ++ exitSwitch r node true, .GoToNext))
    ∧ (roffEscaped node.literal).length
        = node.literal.length + node.literal.countP (fun c => decide (IsRoffMeta c))
    ∧ (node.type = .Text →
        RenderNode r node parent true = some (r, roffEscaped node.literal, .GoToNext)) := by
  have hleaf : decide (node.literal.length > 0) = true := by
    simpa [List.length_pos] using hlit
  obtain ⟨pre, he⟩ := enterSwitch_leaf r node parent hkind
  have key : RenderNode r node parent true
      = some (r, pre ++ roffEscaped node.literal ++ exitSwitch r node true, .GoToNext) := by
    simp only [RenderNode, if_true, he, hleaf, Bool.or_true, escape_roffEscape]
  refine ⟨⟨pre, he, key⟩, length_roffEscaped _, fun ht => ?_⟩
  rw [key]
  have he' : enterSwitch r node parent = some ⟨r, [], false⟩ := by
    simp [enterSwitch, ht]
  rw [he] at he'
  simp only [Option.some.injEq, Entered.mk.injEq] at he'
  obtain ⟨-, rfl, -⟩ := he'
  simp [exitSwitch, ht]

theorem renderNode_literal_escaped_witness :
    (Node.mk .Code (bytes "a-b_c") 0 []).literal ≠ [] ∧
    isContainer (Node.mk .Code (bytes "a-b_c") 0 []).type = false ∧
    RenderNode hubRenderer (.mk .Code (bytes "a-b_c") 0 []) (some .Paragraph) true
      = some (hubRenderer, bytes "\\fB\\fCa\\-b\\_c\\fR", .GoToNext)
    ∧ RenderNode hubRenderer (textNode "x&y~z") (some .Paragraph) true
      = some (hubRenderer, bytes "x\\&y\\~z", .GoToNext) :=
  ⟨by decide, rfl,
    by
      obtain ⟨pre, he, h⟩ := (renderNode_literal_escaped hubRenderer
        (.mk .Code (bytes "a-b_c") 0 []) (some .Paragraph) (by decide) rfl).1
      have he' : enterSwitch hubRenderer (.mk .Code (bytes "a-b_c") 0 []) (some .Paragraph)
          = some ⟨hubRenderer, bytes "\\fB\\fC", false⟩ := by decide
      rw [he] at he'
      simp only [Option.some.injEq, Entered.mk.injEq] at he'
      obtain ⟨-, rfl, -⟩ := he'
      exact h.trans (by decide),
    ((renderNode_literal_escaped hubRenderer (textNode "x&y~z") (some .Paragraph) (by decide)
      rfl).2.2 rfl).trans (by decide)⟩

/-- C8: for a Paragraph node, `RenderNode` on entering writes `.PP` and a
newline exactly when the node's parent is not an Item; what follows is only
the paragraph's own literal, roff-escaped, which is empty for the paragraphs
of the AST (a Paragraph is a container), so that a Paragraph under an Item
writes nothing on entering.  The renderer is unchanged and the walk goes on. -/
theorem paragraph_break_unless_in_item (r : RoffRenderer) (node : Node) (p : NodeType)
    (htype : node.type = .Paragraph) :
    RenderNode r node (some p) true
      = some (r, (if p = .Item then [] else bytes ".PP\n") ++ roffEscaped node.literal,
          .GoToNext)
    ∧ (node.literal = [] →
        RenderNode r node (some p) true
          = some (r, if p = .Item then [] else bytes ".PP\n", .GoToNext)) := by
  have key : RenderNode r node (some p) true
      = some (r, (if p = .Item then [] else bytes ".PP\n") ++ roffEscaped node.literal,
          .GoToNext) := by
    by_cases hl : node.literal = []
    · by_cases hp : p = .Item
      · simp [RenderNode, enterSwitch, htype, hl, hp, roffEscaped]
      · simp [RenderNode, enterSwitch, htype, hl, hp, roffEscaped]
    · have hleaf : decide (node.literal.length > 0) = true := by
        simpa [List.length_pos] using hl
      by_cases hp : p = .Item
      · simp [RenderNode, enterSwitch, exitSwitch, htype, hleaf, hp, escape_roffEscape]
      · simp [RenderNode, enterSwitch, exitSwitch, htype, hleaf, hp, escape_roffEscape]
  refine ⟨key, fun hl => ?_⟩
  rw [key, hl]
  simp [roffEscaped]

theorem paragraph_break_unless_in_item_witness :
    RenderNode hubRenderer (.mk .Paragraph [] 0 [textNode "x"]) (some .Item) true
      = some (hubRenderer, [], .GoToNext)
    ∧ RenderNode hubRenderer (.mk .Paragraph [] 0 [textNode "x"]) (some .Document) true
      = some (hubRenderer, bytes ".PP\n", .GoToNext) :=
  ⟨(paragraph_break_unless_in_item hubRenderer (.mk .Paragraph [] 0 [textNode "x"]) .Item
      rfl).2 rfl,
   ((paragraph_break_unless_in_item hubRenderer (.mk .Paragraph [] 0 [textNode "x"]) .Document
      rfl).2 rfl).trans (by decide)⟩

/-! ## Code blocks, dropped kinds and text nodes -/

theorem roffEscaped_nil : roffEscaped [] = [] := rfl

theorem leaf_true_of_ne_nil {l : List Byte} (h : l ≠ []) : decide (l.length > 0) = true := by
  simpa [List.length_pos] using h

/-- C11 on the code: for a CodeBlock node `RenderNode` (entering, the only
call the walk makes on this leaf) writes `.PP`, `.RS`, `.nf`, each with a
newline, then the roff-escaped literal and the end sequence newline, `.fi`,
newline, `.RE`, newline when the literal is non-empty; when the literal is
empty it writes the begin sequence only, and the walk of the node adds
nothing, so `.nf` and `.RS` stay open. -/
theorem codeBlock_end_sequence_needs_literal (r : RoffRenderer) (parent : Option NodeType)
    (l : List Byte) (n : Int) (cs : List Node) :
    RenderNode r (.mk .CodeBlock l n cs) parent true
      = some (r, bytes ".PP\n.RS\n.nf\n"
          ++ (if l = [] then [] else roffEscaped l ++ bytes "\n.fi\n.RE\n"), .GoToNext)
    ∧ renderWalk r parent (.mk .CodeBlock l n cs)
      = some (r, bytes ".PP\n.RS\n.nf\n"
          ++ (if l = [] then [] else roffEscaped l ++ bytes "\n.fi\n.RE\n"))
    ∧ renderWalk r parent (.mk .CodeBlock [] n cs) = some (r, bytes ".PP\n.RS\n.nf\n") := by
  have key : ∀ l : List Byte, RenderNode r (.mk .CodeBlock l n cs) parent true
      = some (r, bytes ".PP\n.RS\n.nf\n"
          ++ (if l = [] then [] else roffEscaped l ++ bytes "\n.fi\n.RE\n"), .GoToNext) := by
    intro l
    by_cases hl : l = []
    · subst hl
      simp [RenderNode, enterSwitch, Node.type, Node.literal]
    · simp [RenderNode, enterSwitch, exitSwitch, Node.type, Node.literal, hl,
        leaf_true_of_ne_nil hl, escape_roffEscape]
  have walk : ∀ l : List Byte, renderWalk r parent (.mk .CodeBlock l n cs)
      = some (r, bytes ".PP\n.RS\n.nf\n"
          ++ (if l = [] then [] else roffEscaped l ++ bytes "\n.fi\n.RE\n")) := by
    intro l
    simp [renderWalk, walkNode, roffVisit_eq, key l, isContainer]
  refine ⟨key l, walk l, ?_⟩
  simpa using walk []

theorem RenderNode_no_markup (r : RoffRenderer) (node : Node) (parent : Option NodeType)
    (entering : Bool)
    (htype : node.type = .HTMLSpan ∨ node.type = .Del ∨ node.type = .Image) :
    RenderNode r node parent entering = some (r, roffEscaped node.literal, .GoToNext) := by
  by_cases hl : node.literal = []
  · rcases htype with h | h | h <;> cases entering <;>
      simp [RenderNode, enterSwitch, exitSwitch, h, hl, roffEscaped_nil]
  · rcases htype with h | h | h <;> cases entering <;>
      simp [RenderNode, enterSwitch, exitSwitch, h, leaf_true_of_ne_nil hl, escape_roffEscape]

/-- C12 fails as stated: an HTMLSpan node carries the raw HTML as its
literal, and `RenderNode` writes it (roff-escaped), here `<br/>`, on
entering. -/
theorem htmlSpan_literal_is_written :
    RenderNode hubRenderer (.mk .HTMLSpan (bytes "<br/>") 0 []) (some .Paragraph) true
      = some (hubRenderer, bytes "<br/>", .GoToNext)
    ∧ bytes "<br/>" ≠ [] := by
  constructor <;> decide

/-- C12, as amended: for a node of kind HTMLSpan, Del or Image, `RenderNode`
writes no markup of its own, on entering and on leaving: each call writes
exactly the node's literal, roff-escaped, so it writes nothing when the
literal is empty (as it is for the containers Del and Image), and the
renderer is unchanged. -/
theorem dropped_kinds_write_only_literal (r : RoffRenderer) (node : Node)
    (parent : Option NodeType) (entering : Bool)
    (htype : node.type = .HTMLSpan ∨ node.type = .Del ∨ node.type = .Image) :
    RenderNode r node parent entering = some (r, roffEscaped node.literal, .GoToNext)
    ∧ (node.literal = [] → RenderNode r node parent entering = some (r, [], .GoToNext)) := by
  refine ⟨RenderNode_no_markup r node parent entering htype, fun hl => ?_⟩
  rw [RenderNode_no_markup r node parent entering htype, hl]
  rfl

theorem dropped_kinds_write_only_literal_witness :
    RenderNode hubRenderer (.mk .Del [] 0 [textNode "x"]) (some .Paragraph) true
      = some (hubRenderer, [], .GoToNext)
    ∧ RenderNode hubRenderer (.mk .Image [] 0 [textNode "alt"]) (some .Paragraph) false
      = some (hubRenderer, [], .GoToNext)
    ∧ RenderNode hubRenderer (.mk .HTMLSpan (bytes "<a-b>") 0 []) (some .Paragraph) true
      = some (hubRenderer, bytes "<a\\-b>", .GoToNext) :=
  ⟨(dropped_kinds_write_only_literal hubRenderer (.mk .Del [] 0 [textNode "x"])
      (some .Paragraph) true (Or.inr (Or.inl rfl))).2 rfl,
   (dropped_kinds_write_only_literal hubRenderer (.mk .Image [] 0 [textNode "alt"])
      (some .Paragraph) false (Or.inr (Or.inr rfl))).2 rfl,
   ((dropped_kinds_write_only_literal hubRenderer (.mk .HTMLSpan (bytes "<a-b>") 0 [])
      (some .Paragraph) true (Or.inl rfl)).1).trans (by decide)⟩

theorem RenderNode_text (r : RoffRenderer) (parent : Option NodeType) (l : List Byte) (n : Int)
    (cs : List Node) :
    RenderNode r (.mk .Text l n cs) parent true = some (r, roffEscaped l, .GoToNext) := by
  by_cases hl : l = []
  · subst hl
    simp [RenderNode, enterSwitch, Node.type, Node.literal, roffEscaped_nil]
  · simp [RenderNode, enterSwitch, exitSwitch, Node.type, Node.literal,
      leaf_true_of_ne_nil hl, escape_roffEscape]

theorem roffEscaped_cons_meta {x : Byte} (t : List Byte) (hx : IsRoffMeta x) :
    roffEscaped (x :: t) = 92 :: x :: roffEscaped t := by
  simp [roffEscaped, hx]

theorem roffEscaped_cons_plain {x : Byte} (t : List Byte) (hx : ¬ IsRoffMeta x) :
    roffEscaped (x :: t) = x :: roffEscaped t := by
  simp [roffEscaped, hx]

theorem not_isRoffMeta_backslash : ¬ IsRoffMeta 92 := by decide

/-- The escaped text starts with a metacharacter only after a backslash. -/
theorem roffEscaped_head_meta {t v : List Byte} {m : Byte} (hm : IsRoffMeta m)
    (h : roffEscaped t = m :: v) : False := by
  cases t with
  | nil => cases h
  | cons z t =>
    by_cases hz : IsRoffMeta z
    · rw [roffEscaped_cons_meta t hz] at h
      simp only [List.cons.injEq] at h
      rw [← h.1] at hm
      exact not_isRoffMeta_backslash hm
    · rw [roffEscaped_cons_plain t hz] at h
      simp only [List.cons.injEq] at h
      rw [h.1] at hz
      exact hz hm

/-- A backslash and a metacharacter at the start of the escaped text come
from that metacharacter at the start of the text. -/
theorem roffEscaped_head_pair {t v : List Byte} {m : Byte} (hm : IsRoffMeta m)
    (h : roffEscaped t = 92 :: m :: v) : ∃ t₁, t = m :: t₁ := by
  cases t with
  | nil => cases h
  | cons y t =>
    by_cases hy : IsRoffMeta y
    · rw [roffEscaped_cons_meta t hy] at h
      simp only [List.cons.injEq, true_and] at h
      exact ⟨t, by rw [h.1]⟩
    · rw [roffEscaped_cons_plain t hy] at h
      simp only [List.cons.injEq] at h
      exact (roffEscaped_head_meta hm h.2).elim

/-- Two backslashes before a metacharacter in the escaped text come from a
backslash before that metacharacter in the text itself. -/
theorem roffEscaped_double_backslash {m : Byte} (hm : IsRoffMeta m) :
    ∀ (l u v : List Byte), roffEscaped l = u ++ 92 :: 92 :: m :: v →
      ∃ u₁ v₁, l = u₁ ++ 92 :: m :: v₁ := by
  intro l
  induction l with
  | nil =>
    intro u v h
    have := congrArg List.length h
    simp [roffEscaped] at this
    omega
  | cons x t ih =>
    intro u v h
    by_cases hx : IsRoffMeta x
    · rw [roffEscaped_cons_meta t hx] at h
      match u, h with
      | [], h =>
        simp only [List.nil_append, List.cons.injEq, true_and] at h
        rw [h.1] at hx
        exact (not_isRoffMeta_backslash hx).elim
      | [a], h =>
        simp only [List.cons_append, List.nil_append, List.cons.injEq] at h
        rw [h.2.1] at hx
        exact (not_isRoffMeta_backslash hx).elim
      | a :: b :: u₂, h =>
        simp only [List.cons_append, List.cons.injEq] at h
        obtain ⟨u₁, v₁, e⟩ := ih u₂ v h.2.2
        exact ⟨x :: u₁, v₁, by rw [e]; rfl⟩
    · rw [roffEscaped_cons_plain t hx] at h
      match u, h with
      | [], h =>
        simp only [List.nil_append, List.cons.injEq] at h
        obtain ⟨t₁, e⟩ := roffEscaped_head_pair hm h.2
        exact ⟨[], t₁, by rw [h.1, e]; rfl⟩
      | a :: u₂, h =>
        simp only [List.cons_append, List.cons.injEq] at h
        obtain ⟨u₁, v₁, e⟩ := ih u₂ v h.2
        exact ⟨x :: u₁, v₁, by rw [e]; rfl⟩

/-- C13 fails as stated: for the Text literal `\-` (a backslash before a
hyphen in the text itself) `RenderNode` writes `\\-`, two backslashes directly
followed by the metacharacter `-`. -/
theorem text_backslash_before_meta_doubles :
    RenderNode hubRenderer (textNode "\\-") (some .Paragraph) true
      = some (hubRenderer, bytes "\\\\-", .GoToNext)
    ∧ IsRoffMeta 45 ∧ [92, 92, 45] <:+: bytes "\\\\-" := by
  refine ⟨by decide, by decide, by decide⟩

/-- C13, as amended: for every Text node whose literal holds no backslash
directly followed by `&`, `~`, `_` or `-`, what `RenderNode` writes for the
node in its single pass is the escaped literal, and it holds no position where
two consecutive backslashes are directly followed by one of these bytes. -/
theorem text_output_no_double_backslash (r : RoffRenderer) (parent : Option NodeType)
    (l : List Byte) (n : Int) (cs : List Node)
    (hl : ∀ m, IsRoffMeta m → ¬ [92, m] <:+: l) :
    RenderNode r (.mk .Text l n cs) parent true = some (r, roffEscaped l, .GoToNext)
    ∧ ∀ m, IsRoffMeta m → ¬ [92, 92, m] <:+: roffEscaped l := by
  refine ⟨RenderNode_text r parent l n cs, ?_⟩
  rintro m hm ⟨u, v, e⟩
  obtain ⟨u₁, v₁, e₁⟩ := roffEscaped_double_backslash hm l u v (by simpa using e.symm)
  exact hl m hm ⟨u₁, v₁, by simp [e₁]⟩

theorem text_output_no_double_backslash_witness :
    (∀ m, IsRoffMeta m → ¬ [92, m] <:+: bytes "a-b") ∧
    RenderNode hubRenderer (textNode "a-b") (some .Paragraph) true
      = some (hubRenderer, bytes "a\\-b", .GoToNext)
    ∧ ¬ [92, 92, 45] <:+: bytes "a\\-b" :=
  have h : ∀ m, IsRoffMeta m → ¬ [92, m] <:+: bytes "a-b" := by
    rintro m - ⟨u, v, e⟩
    have hmem : (92 : Byte) ∈ bytes "a-b" := by rw [← e]; simp
    revert hmem
    decide
  ⟨h, ((text_output_no_double_backslash hubRenderer (some .Paragraph) (bytes "a-b") 0 [] h).1).trans
      (by decide),
    fun hh => (text_output_no_double_backslash hubRenderer (some .Paragraph) (bytes "a-b") 0 []
      h).2 45 (by decide) (by
        have e : roffEscaped (bytes "a-b") = bytes "a\\-b" := by decide
        rw [e]; exact hh)⟩

/-! ## Single-letter names and output paths -/

theorem titleRe_matchAt_none_of_head {x : Byte} (t : List Byte) (hx : ¬ IsLetter x) :
    titleRe.matchAt (x :: t) = none := by
  cases h : titleRe.matchAt (x :: t) with
  | none => rfl
  | some m =>
    obtain ⟨c, y, name, d, z, u, hc, -, -, -, -, e⟩ := titleRe_matchAt_some h
    simp only [List.cons.injEq] at e
    rw [e.1] at hx
    exact (hx hc).elim

theorem titleRe_matchAt_none_of_second {x y : Byte} (t : List Byte) (hy : ¬ IsNameChar y) :
    titleRe.matchAt (x :: y :: t) = none := by
  cases h : titleRe.matchAt (x :: y :: t) with
  | none => rfl
  | some m =>
    obtain ⟨c, y₁, name, d, z, u, -, hy₁, -, -, -, e⟩ := titleRe_matchAt_some h
    simp only [List.cons.injEq] at e
    rw [e.2.1] at hy
    exact (hy hy₁).elim

theorem titleRe_find_none {s : List Byte} (h : ¬ HasTitle s) : titleRe.find s = none := by
  apply Re.find_eq_none
  intro u v e
  cases hm : titleRe.matchAt v with
  | none => rfl
  | some m =>
    exfalso
    obtain ⟨c, y, name, d, z, w, hc, hy, hname, hd, hz, hv⟩ := titleRe_matchAt_some hm
    exact h ⟨u, c :: y :: name, d, z, w, ⟨c, y, name, rfl, hc, hy, hname⟩, hd, hz,
      by rw [e, hv]; simp⟩

/-- After a single-letter name the title search finds nothing in
`c(N) -- DESCRIPTION` unless the description holds a title itself. -/
theorem findAllSubmatch1_single_letter {c n : Byte} {desc : List Byte} (hn : IsDigit n)
    (hdesc : ¬ HasTitle desc) :
    findAllSubmatch1 titleRe (c :: 40 :: n :: 41 :: 32 :: 45 :: 45 :: 32 :: desc) = none := by
  have hn' : ¬ IsLetter n := by
    have key : ∀ k : Nat, (48 ≤ k ∧ k ≤ 57) → ¬ ((65 ≤ k ∧ k ≤ 90) ∨ (97 ≤ k ∧ k ≤ 122)) := by
      intro k; omega
    exact key n hn
  unfold findAllSubmatch1
  rw [Re.find_cons_of_none (titleRe_matchAt_none_of_second _ (by decide)),
    Re.find_cons_of_none (titleRe_matchAt_none_of_head _ (by decide)),
    Re.find_cons_of_none (titleRe_matchAt_none_of_head _ hn'),
    Re.find_cons_of_none (titleRe_matchAt_none_of_head _ (by decide)),
    Re.find_cons_of_none (titleRe_matchAt_none_of_head _ (by decide)),
    Re.find_cons_of_none (titleRe_matchAt_none_of_head _ (by decide)),
    Re.find_cons_of_none (titleRe_matchAt_none_of_head _ (by decide)),
    Re.find_cons_of_none (titleRe_matchAt_none_of_head _ (by decide)),
    titleRe_find_none hdesc]
  rfl

/-- C14 fails as stated: for the flattened text `w(1) -- x` (the single
letter `w` as NAME) `renderHeading` writes the block with empty name and
section and the whole text as description, not name `w`, section `1` and
description `x`. -/
theorem renderHeading_single_letter_name_rejected :
    IsLetter 119 ∧ IsDigit 49 ∧
    textContent (headingNode 1 "w(1) -- x") = 119 :: 40 :: 49 :: 41 :: 32 :: 45 :: 45 :: 32 :: bytes "x" ∧
    renderHeading (headingNode 1 "w(1) -- x") (bytes "Jan 5, 1984") (bytes "Hub v2.4.0")
      = bytes ".TH \"\" \"\" \"Jan 5, 1984\" \"Hub v2.4.0\" \"w(1) -- x\"\n.nh\n.ad l\n" ∧
    renderHeading (headingNode 1 "w(1) -- x") (bytes "Jan 5, 1984") (bytes "Hub v2.4.0")
      ≠ bytes ".TH \"w\" \"1\" \"Jan 5, 1984\" \"Hub v2.4.0\" \"x\"\n.nh\n.ad l\n" := by
  refine ⟨by decide, by decide, by decide, by decide, by decide⟩

/-- C14, as amended: the title pattern accepts a letter-led NAME only from
two bytes on.  For a letter c, a digit N and a DESCRIPTION that holds no title
itself, `renderHeading` on a level-1 heading with flattened text
`c(N) -- DESCRIPTION` writes the block with empty name, empty section and the
whole text as description; with one more letter, digit, underscore or hyphen
y after c and a non-empty DESCRIPTION without newline it writes the block with
name `cy`, section N and description DESCRIPTION. -/
theorem renderHeading_name_needs_two_bytes (node : Node) (date version desc : List Byte)
    (c n : Byte) (hlevel : node.level = 1) (hc : IsLetter c) (hn : IsDigit n) :
    (¬ HasTitle desc →
      textContent node = c :: 40 :: n :: 41 :: 32 :: 45 :: 45 :: 32 :: desc →
      renderHeading node date version
        = bytes ".TH \"\" \"\" \"" ++ quoteEscaped date ++ bytes "\" \"" ++ quoteEscaped version
          ++ bytes "\" \"" ++ quoteEscaped (textContent node) ++ bytes "\"\n" ++ bytes ".nh\n"
          ++ bytes ".ad l\n")
    ∧ (∀ y : Byte, IsNameChar y → desc ≠ [] → (∀ x ∈ desc, x ≠ 10) →
      textContent node = c :: y :: 40 :: n :: 41 :: 32 :: 45 :: 45 :: 32 :: desc →
      renderHeading node date version
        = bytes ".TH \"" ++ [c, y] ++ bytes "\" \"" ++ [n] ++ bytes "\" \"" ++ quoteEscaped date
          ++ bytes "\" \"" ++ quoteEscaped version ++ bytes "\" \"" ++ quoteEscaped desc
          ++ bytes "\"\n" ++ bytes ".nh\n" ++ bytes ".ad l\n") := by
  constructor
  · intro hdesc htext
    unfold renderHeading
    simp only [hlevel, if_true, escape_headingEscape]
    rw [htext, findAllSubmatch1_single_letter hn hdesc]
    simp [bytes, quoteEscaped]
  · intro y hy hne hnl htext
    have hname : IsTitleName [c, y] := ⟨c, y, [], rfl, hc, hy, by simp⟩
    have hq : quoteEscaped [c, y] = [c, y] := by
      apply quoteEscaped_of_no_quote
      intro x hx
      simp only [List.mem_cons, List.mem_singleton, List.not_mem_nil, or_false] at hx
      rcases hx with rfl | rfl
      · exact isNameChar_ne_quote (isLetter_isNameChar hc)
      · exact isNameChar_ne_quote hy
    have e : c :: y :: 40 :: n :: 41 :: 32 :: 45 :: 45 :: 32 :: desc
        = [c, y] ++ bytes "(" ++ [n] ++ bytes ") -- " ++ desc := by
      simp [bytes]
    unfold renderHeading
    simp only [hlevel, if_true, htext, e, findAllSubmatch1_title hname hn hne hnl,
      escape_headingEscape, List.getD_cons_succ, List.getD_cons_zero, hq]

theorem not_hasTitle_of_no_paren (s : List Byte) (h : (40 : Byte) ∉ s) : ¬ HasTitle s := by
  rintro ⟨u, name, n, z, v, -, -, -, e⟩
  apply h
  rw [e]
  simp

theorem renderHeading_name_needs_two_bytes_witness :
    (headingNode 1 "w(1) -- x").level = 1 ∧ IsLetter 119 ∧ IsDigit 49 ∧
    ¬ HasTitle (bytes "x") ∧
    renderHeading (headingNode 1 "w(1) -- x") (bytes "Jan 5, 1984") (bytes "Hub v2.4.0")
      = bytes ".TH \"\" \"\" \"Jan 5, 1984\" \"Hub v2.4.0\" \"w(1) -- x\"\n.nh\n.ad l\n" ∧
    renderHeading (headingNode 1 "wc(1) -- x") (bytes "Jan 5, 1984") (bytes "Hub v2.4.0")
      = bytes ".TH \"wc\" \"1\" \"Jan 5, 1984\" \"Hub v2.4.0\" \"x\"\n.nh\n.ad l\n" :=
  ⟨rfl, by decide, by decide, not_hasTitle_of_no_paren _ (by decide),
    ((renderHeading_name_needs_two_bytes (headingNode 1 "w(1) -- x") (bytes "Jan 5, 1984")
      (bytes "Hub v2.4.0") (bytes "x") 119 49 rfl (by decide) (by decide)).1
      (not_hasTitle_of_no_paren _ (by decide)) (by decide)).trans (by decide),
    ((renderHeading_name_needs_two_bytes (headingNode 1 "wc(1) -- x") (bytes "Jan 5, 1984")
      (bytes "Hub v2.4.0") (bytes "x") 119 49 rfl (by decide) (by decide)).2 99
      (by decide) (by decide) (by decide) (by decide)).trans (by decide)⟩

theorem trimSuffix_append (q suffix : List Byte) : trimSuffix (q ++ suffix) suffix = q := by
  unfold trimSuffix
  rw [if_pos (List.suffix_append q suffix)]
  simp

theorem trimSuffix_of_not_suffix (p suffix : List Byte) (h : ¬ suffix <:+ p) :
    trimSuffix p suffix = p := by
  unfold trimSuffix
  rw [if_neg h]

/-- C15: `generateFromFile` derives the roff output path as the input path
with one trailing `.md` removed plus `.1`, and the HTML output path as the
input path with one trailing `.md` removed plus `.html`; for an input path
that does not end in `.md` the outputs are the path plus `.1` and the path
plus `.html`. -/
theorem output_paths :
    (∀ q : List Byte, roffFile (q ++ bytes ".md") = q ++ bytes ".1"
      ∧ htmlFile (q ++ bytes ".md") = q ++ bytes ".html")
    ∧ (∀ p : List Byte, ¬ bytes ".md" <:+ p →
        roffFile p = p ++ bytes ".1" ∧ htmlFile p = p ++ bytes ".html") := by
  constructor
  · intro q
    simp only [roffFile, htmlFile, trimSuffix_append, and_self]
  · intro p hp
    simp only [roffFile, htmlFile, trimSuffix_of_not_suffix p _ hp, and_self]

theorem output_paths_witness :
    roffFile (bytes "man/hub.1.md") = bytes "man/hub.1.1"
    ∧ htmlFile (bytes "a.md.md") = bytes "a.md.html"
    ∧ ¬ bytes ".md" <:+ bytes "README"
    ∧ roffFile (bytes "README") = bytes "README.1"
    ∧ htmlFile (bytes "README") = bytes "README.html" :=
  ⟨(output_paths.1 (bytes "man/hub.1")).1, (output_paths.1 (bytes "a.md")).2,
    by decide, (output_paths.2 (bytes "README") (by decide)).1,
    (output_paths.2 (bytes "README") (by decide)).2⟩

/-! ## The flattened text of a subtree -/

theorem textContent_eq (node : Node) :
    textContent node = match walkNode textVisit none node [] with
      | some w => w.state
      | none => [] := rfl

theorem textVisit_enter (buf : List Byte) (n : Node) (p : Option NodeType) :
    textVisit buf n p true = some (buf ++ n.literal, .GoToNext) := by
  unfold textVisit
  by_cases hl : n.literal = []
  · simp [hl]
  · simp [leaf_true_of_ne_nil hl]

theorem textVisit_exit (buf : List Byte) (n : Node) (p : Option NodeType) :
    textVisit buf n p false = some (buf, .GoToNext) := by
  simp [textVisit]

mutual
/-- The walk of `textContent` appends the literals of the nodes it enters. -/
theorem walkNode_textVisit :
    ∀ (node : Node) (p : Option NodeType) (buf : List Byte),
      walkNode textVisit p node buf = some ⟨buf ++ node.walkedLiterals, false⟩
  | .mk t l n cs, p, buf => by
    have hc := walkChildren_textVisit cs (some t) (buf ++ l)
    by_cases ht : isContainer t = true
    · simp only [walkNode, textVisit_enter, textVisit_exit, Node.literal, ht, if_true, hc,
        Node.walkedLiterals, List.append_assoc]
    · simp [walkNode, textVisit_enter, Node.literal, ht, Node.walkedLiterals]
/-- The same for the children of a container. -/
theorem walkChildren_textVisit :
    ∀ (cs : List Node) (p : Option NodeType) (buf : List Byte),
      walkChildren textVisit p cs buf = some ⟨buf ++ walkedLiteralsList cs, false⟩
  | [], p, buf => by simp [walkChildren, walkedLiteralsList]
  | c :: cs, p, buf => by
    simp only [walkChildren, walkNode_textVisit c p buf,
      walkChildren_textVisit cs p (buf ++ c.walkedLiterals), walkedLiteralsList,
      List.append_assoc]
end

theorem textContent_eq_walkedLiterals (node : Node) : textContent node = node.walkedLiterals := by
  rw [textContent_eq, walkNode_textVisit]
  simp

theorem walkedLiteralsList_eq (cs : List Node) :
    walkedLiteralsList cs = (cs.map textContent).flatten := by
  induction cs with
  | nil => rfl
  | cons c cs ih => simp [walkedLiteralsList, ih, textContent_eq_walkedLiterals]

mutual
theorem walkedLiterals_eq_literals :
    ∀ node : Node, node.leavesChildless = true → node.walkedLiterals = node.literals
  | .mk t l n cs, h => by
    simp only [Node.leavesChildless, Bool.and_eq_true, Bool.or_eq_true, List.isEmpty_iff] at h
    have hcs := walkedLiteralsList_eq_literalsList cs h.2
    rcases h.1 with ht | he
    · simp [Node.walkedLiterals, Node.literals, ht, hcs]
    · subst he
      simp [Node.walkedLiterals, Node.literals, literalsList, walkedLiteralsList]
theorem walkedLiteralsList_eq_literalsList :
    ∀ cs : List Node, leavesChildlessList cs = true → walkedLiteralsList cs = literalsList cs
  | [], _ => rfl
  | c :: cs, h => by
    simp only [leavesChildlessList, Bool.and_eq_true] at h
    simp [walkedLiteralsList, literalsList, walkedLiterals_eq_literals c h.1,
      walkedLiteralsList_eq_literalsList cs h.2]
end

/-- C16: `textContent` returns the node's own literal followed, for a
container, by the text of each child in order, and nothing else; so on a tree
in which only containers have children it returns the concatenation, in
document (pre-order) order, of the literals of the node and of all its
descendants, each once and unescaped, nodes without literal adding nothing:
inline formatting inside a heading is flattened to plain text. -/
theorem textContent_flattens (node : Node) :
    textContent node
      = node.literal
        ++ (if isContainer node.type then (node.children.map textContent).flatten else [])
    ∧ (node.leavesChildless = true → textContent node = node.literals) := by
  constructor
  · obtain ⟨t, l, n, cs⟩ := node
    rw [textContent_eq_walkedLiterals]
    simp only [Node.walkedLiterals, Node.literal, Node.type, Node.children,
      walkedLiteralsList_eq]
  · intro h
    rw [textContent_eq_walkedLiterals, walkedLiterals_eq_literals node h]

theorem textContent_flattens_witness :
    (Node.mk .Heading [] 2
      [textNode "a ", .mk .Strong [] 0 [textNode "b-c"], .mk .Code (bytes "_d") 0 [],
        .mk .Emph [] 0 [.mk .Link [] 0 [textNode " e"]]]).leavesChildless = true
    ∧ textContent (.mk .Heading [] 2
      [textNode "a ", .mk .Strong [] 0 [textNode "b-c"], .mk .Code (bytes "_d") 0 [],
        .mk .Emph [] 0 [.mk .Link [] 0 [textNode " e"]]]) = bytes "a b-c_d e" :=
  ⟨by decide,
    ((textContent_flattens (.mk .Heading [] 2
      [textNode "a ", .mk .Strong [] 0 [textNode "b-c"], .mk .Code (bytes "_d") 0 [],
        .mk .Emph [] 0 [.mk .Link [] 0 [textNode " e"]]])).2 (by decide)).trans (by decide)⟩

/-! ## Inline containers, the item index and the returned directive -/

theorem enterSwitch_some (r : RoffRenderer) (node : Node) (p : NodeType) :
    ∃ e, enterSwitch r node (some p) = some e := by
  obtain ⟨t, l, n, cs⟩ := node
  cases t
  case Paragraph =>
    by_cases hp : p = .Item
    · exact ⟨⟨r, [], false⟩, by simp [enterSwitch, Node.type, hp]⟩
    · exact ⟨⟨r, bytes ".PP\n", false⟩, by simp [enterSwitch, Node.type, hp]⟩
  all_goals exact ⟨_, by simp only [enterSwitch, Node.type]; rfl⟩

/-- With a parent at hand `RenderNode` returns, and never asks to stop. -/
theorem RenderNode_some (r : RoffRenderer) (node : Node) (p : NodeType) (entering : Bool) :
    ∃ r₁ out status, RenderNode r node (some p) entering = some (r₁, out, status)
      ∧ status ≠ .Terminate := by
  cases entering with
  | false =>
    exact ⟨_, _, .GoToNext, by simp only [RenderNode, Bool.false_eq_true, if_false]; rfl,
      by simp⟩
  | true =>
    obtain ⟨⟨r₁, out, ret⟩, he⟩ := enterSwitch_some r node p
    cases ret with
    | true => exact ⟨r₁, out, .SkipChildren, by simp only [RenderNode, if_true, he], by simp⟩
    | false =>
      exact ⟨_, _, .GoToNext, by simp only [RenderNode, if_true, he]; rfl, by simp⟩

mutual
/-- The walk of a subtree below a parent succeeds, is not stopped, and
appends to the output written so far. -/
theorem walkNode_roff_total :
    ∀ (node : Node) (p : NodeType) (r : RoffRenderer),
      ∃ r₁ out, ∀ buf : List Byte,
        walkNode roffVisit (some p) node (r, buf) = some ⟨(r₁, buf ++ out), false⟩
  | .mk t l n cs, p, r => by
    obtain ⟨r₁, o₁, st₁, e₁, hst₁⟩ := RenderNode_some r (.mk t l n cs) p true
    cases st₁ with
    | Terminate => exact absurd rfl hst₁
    | SkipChildren =>
      exact ⟨r₁, o₁, fun buf => by simp only [walkNode, roffVisit_eq, e₁]⟩
    | GoToNext =>
      by_cases hc : isContainer t = true
      · obtain ⟨r₂, o₂, e₂⟩ := walkChildren_roff_total cs t r₁
        obtain ⟨r₃, o₃, st₃, e₃, hst₃⟩ := RenderNode_some r₂ (.mk t l n cs) p false
        refine ⟨r₃, o₁ ++ o₂ ++ o₃, fun buf => ?_⟩
        cases st₃ with
        | Terminate => exact absurd rfl hst₃
        | SkipChildren =>
          simp only [walkNode, roffVisit_eq, e₁, hc, if_true, e₂, e₃, List.append_assoc]
        | GoToNext =>
          simp only [walkNode, roffVisit_eq, e₁, hc, if_true, e₂, e₃, List.append_assoc]
      · exact ⟨r₁, o₁, fun buf => by simp [walkNode, roffVisit_eq, e₁, hc]⟩
/-- The same for the children of a container. -/
theorem walkChildren_roff_total :
    ∀ (cs : List Node) (p : NodeType) (r : RoffRenderer),
      ∃ r₁ out, ∀ buf : List Byte,
        walkChildren roffVisit (some p) cs (r, buf) = some ⟨(r₁, buf ++ out), false⟩
  | [], p, r => ⟨r, [], fun buf => by simp [walkChildren]⟩
  | c :: cs, p, r => by
    obtain ⟨r₁, o₁, h₁⟩ := walkNode_roff_total c p r
    obtain ⟨r₂, o₂, h₂⟩ := walkChildren_roff_total cs p r₁
    exact ⟨r₂, o₁ ++ o₂, fun buf => by simp only [walkChildren, h₁, h₂, List.append_assoc]⟩
end

theorem walkChildren_roff_eq (r : RoffRenderer) (p : NodeType) (cs : List Node) :
    ∃ r₁, ∀ buf : List Byte,
      walkChildren roffVisit (some p) cs (r, buf) = some ⟨(r₁, buf ++ renderChildren r p cs), false⟩ := by
  obtain ⟨r₁, out, h⟩ := walkChildren_roff_total cs p r
  refine ⟨r₁, fun buf => ?_⟩
  have : renderChildren r p cs = out := by
    simp [renderChildren, h []]
  rw [this, h buf]

/-- C17: for an Emph, Strong or Link node without literal of its own
`RenderNode` writes exactly `\fI`, `\fB`, `\[la]` on entering and exactly
`\fP`, `\fP`, `\[ra]` on leaving and leaves the renderer as it is, so that
the walk of the subtree writes the opening markup, the rendering of the
children and the closing markup (nothing else of the node, such as a Link's
destination, which `RenderNode` never reads); and for an inline Code node with
non-empty literal L the output is `\fB\fC`, the roff-escaped L and `\fR`. -/
theorem span_markup (r : RoffRenderer) (parent : Option NodeType) (t : NodeType) (n : Int)
    (cs : List Node) (ht : t = .Emph ∨ t = .Strong ∨ t = .Link) :
    RenderNode r (.mk t [] n cs) parent true = some (r, spanOpen t, .GoToNext)
    ∧ RenderNode r (.mk t [] n cs) parent false = some (r, spanClose t, .GoToNext)
    ∧ (∃ r₁, renderWalk r parent (.mk t [] n cs)
        = some (r₁, spanOpen t ++ renderChildren r t cs ++ spanClose t))
    ∧ (∀ (l : List Byte) (k : Int) (ds : List Node), l ≠ [] →
        RenderNode r (.mk .Code l k ds) parent true
          = some (r, bytes "\\fB\\fC" ++ roffEscaped l ++ bytes "\\fR", .GoToNext)
        ∧ renderWalk r parent (.mk .Code l k ds)
          = some (r, bytes "\\fB\\fC" ++ roffEscaped l ++ bytes "\\fR")) := by
  have hopen : RenderNode r (.mk t [] n cs) parent true = some (r, spanOpen t, .GoToNext) := by
    rcases ht with h | h | h <;> subst h <;>
      simp [RenderNode, enterSwitch, Node.type, Node.literal, spanOpen]
  have hclose : ∀ r₁ : RoffRenderer,
      RenderNode r₁ (.mk t [] n cs) parent false = some (r₁, spanClose t, .GoToNext) := by
    intro r₁
    rcases ht with h | h | h <;> subst h <;>
      simp [RenderNode, exitSwitch, Node.type, Node.literal, spanClose]
  have hcont : isContainer t = true := by
    rcases ht with h | h | h <;> subst h <;> rfl
  have hcode : ∀ (l : List Byte) (k : Int) (ds : List Node), l ≠ [] →
      RenderNode r (.mk .Code l k ds) parent true
        = some (r, bytes "\\fB\\fC" ++ roffEscaped l ++ bytes "\\fR", .GoToNext) := by
    intro l k ds hl
    simp [RenderNode, enterSwitch, exitSwitch, Node.type, Node.literal, leaf_true_of_ne_nil hl,
      escape_roffEscape]
  refine ⟨hopen, hclose r, ?_, fun l k ds hl => ⟨hcode l k ds hl, ?_⟩⟩
  · obtain ⟨r₁, hch⟩ := walkChildren_roff_eq r t cs
    refine ⟨r₁, ?_⟩
    simp only [renderWalk, walkNode, roffVisit_eq, hopen, hcont, if_true, hch, hclose r₁,
      List.nil_append, List.append_assoc]
  · simp [renderWalk, walkNode, roffVisit_eq, hcode l k ds hl, isContainer]

theorem span_markup_witness :
    RenderNode hubRenderer (.mk .Link [] 0 [textNode "a-b"]) (some .Paragraph) true
      = some (hubRenderer, bytes "\\[la]", .GoToNext)
    ∧ RenderNode hubRenderer (.mk .Link [] 0 [textNode "a-b"]) (some .Paragraph) false
      = some (hubRenderer, bytes "\\[ra]", .GoToNext)
    ∧ renderWalk hubRenderer (some .Paragraph) (.mk .Code (bytes "x_y") 0 [])
      = some (hubRenderer, bytes "\\fB\\fCx\\_y\\fR") :=
  ⟨(span_markup hubRenderer (some .Paragraph) .Link 0 [textNode "a-b"] (Or.inr (Or.inr rfl))).1,
   (span_markup hubRenderer (some .Paragraph) .Link 0 [textNode "a-b"] (Or.inr (Or.inr rfl))).2.1,
   (((span_markup hubRenderer (some .Paragraph) .Link 0 [textNode "a-b"]
      (Or.inr (Or.inr rfl))).2.2.2 (bytes "x_y") 0 [] (by decide)).2).trans (by decide)⟩

theorem RenderNode_list_enter (v d : List Byte) (k : Nat) (parent : Option NodeType)
    (node : Node) (htype : node.type = .List) :
    RenderNode ⟨v, d, k⟩ node parent true
      = some (⟨v, d, 0⟩, roffEscaped node.literal, .GoToNext) := by
  by_cases hl : node.literal = []
  · simp [RenderNode, enterSwitch, htype, hl, roffEscaped_nil]
  · simp [RenderNode, enterSwitch, exitSwitch, htype, leaf_true_of_ne_nil hl, escape_roffEscape]

/-- Entering an Item whose index is below `maxInt` adds one to the index. -/
theorem RenderNode_item_enter (r : RoffRenderer) (parent : Option NodeType) (node : Node)
    (htype : node.type = .Item) (_ : r.itemIndex < maxInt) :
    ∃ out, RenderNode r node parent true
      = some ({ r with itemIndex := r.itemIndex + 1 }, out, .GoToNext) := by
  simp only [RenderNode, enterSwitch, htype, if_true]
  exact ⟨_, rfl⟩

/-- C18: the item index does not leak into a list.  Walking a List subtree
from two renderers that differ only in the item index gives the same output
and the same renderer afterwards; entering the List sets the index to 0;
entering an Item adds exactly one to an index below `maxInt` (the `int` of
the source wraps around only at `maxInt`); and after the walk of the first
items of a list without nested list the index is the number of those items. -/
theorem item_index_does_not_leak (v d : List Byte) (k₁ k₂ : Nat) (parent : Option NodeType)
    (node : Node) (htype : node.type = .List) :
    renderWalk ⟨v, d, k₁⟩ parent node = renderWalk ⟨v, d, k₂⟩ parent node
    ∧ (∃ out, RenderNode ⟨v, d, k₁⟩ node parent true = some (⟨v, d, 0⟩, out, .GoToNext))
    ∧ (∀ (r : RoffRenderer) (p : Option NodeType) (it : Node), it.type = .Item →
        r.itemIndex < maxInt →
        ∃ out, RenderNode r it p true
          = some ({ r with itemIndex := r.itemIndex + 1 }, out, .GoToNext))
    ∧ (∀ entered rest : List Node, node.children = entered ++ rest →
        (∀ it ∈ node.children, IsPlainItem it) →
        ∃ out, walkChildren roffVisit (some .List) entered (⟨v, d, 0⟩, [])
          = some ⟨(⟨v, d, entered.length⟩, out), false⟩) := by
  refine ⟨?_, ⟨_, RenderNode_list_enter v d k₁ parent node htype⟩,
    fun r p it hit hlt => RenderNode_item_enter r p it hit hlt, ?_⟩
  · have h₁ := RenderNode_list_enter v d k₁ parent node htype
    have h₂ := RenderNode_list_enter v d k₂ parent node htype
    obtain ⟨t, l, n, cs⟩ := node
    simp only [renderWalk, walkNode, roffVisit_eq, h₁, h₂]
  · intro entered rest hsplit hplain
    have h := walkChildren_plainItems ⟨v, d, 0⟩ entered ⟨v, d, 0⟩ [] rfl rfl
      (fun it hit => hplain it (by rw [hsplit]; simp [hit]))
    simp only [Nat.zero_add, List.nil_append] at h
    exact ⟨_, h⟩

theorem item_index_does_not_leak_witness :
    (Node.mk .List [] 0 [itemNode "I1", itemNode "I2", itemNode "I3"]).type = .List
    ∧ renderWalk ⟨bytes "v", bytes "d", 7⟩ (some .Document)
        (.mk .List [] 0 [itemNode "I1", itemNode "I2", itemNode "I3"])
      = renderWalk ⟨bytes "v", bytes "d", 0⟩ (some .Document)
        (.mk .List [] 0 [itemNode "I1", itemNode "I2", itemNode "I3"])
    ∧ renderWalk ⟨bytes "v", bytes "d", 0⟩ (some .Document)
        (.mk .List [] 0 [itemNode "I1", itemNode "I2", itemNode "I3"])
      = some (⟨bytes "v", bytes "d", 3⟩, bytes ".PP\nI1\n.RS 4\nI2\n.RE\n.PP\nI3\n\n")
    ∧ hubRenderer.itemIndex < maxInt
    ∧ ∃ out, RenderNode hubRenderer (itemNode "I1") (some .List) true
      = some ({ hubRenderer with itemIndex := 1 }, out, .GoToNext) :=
  ⟨rfl,
    (item_index_does_not_leak (bytes "v") (bytes "d") 7 0 (some .Document)
      (.mk .List [] 0 [itemNode "I1", itemNode "I2", itemNode "I3"]) rfl).1,
    by decide!, by decide,
    (item_index_does_not_leak (bytes "v") (bytes "d") 7 0 (some .Document)
      (.mk .List [] 0 [itemNode "I1", itemNode "I2", itemNode "I3"]) rfl).2.2.1
      hubRenderer (some .List) (itemNode "I1") rfl (by decide)⟩

/-- C19: `RenderNode` returns `SkipChildren` exactly when it is called with
`entering = true` on a Heading node, of any level, and then it has written
what `renderHeading` writes; in every other case in which it returns (it
does unless a Paragraph is entered without parent) it returns `GoToNext`.
So the walk of a heading's subtree writes exactly the output of
`renderHeading`: the children are not walked and their text is not rendered
a second time. -/
theorem skipChildren_only_on_heading (r : RoffRenderer) (node : Node)
    (parent : Option NodeType) (entering : Bool) :
    (node.type = .Heading →
      RenderNode r node parent true
        = some (r, renderHeading node r.Date r.Version, .SkipChildren)
      ∧ renderWalk r parent node = some (r, renderHeading node r.Date r.Version))
    ∧ (¬ (entering = true ∧ node.type = .Heading) →
        (entering = true → node.type = .Paragraph → parent ≠ none) →
        ∃ r₁ out, RenderNode r node parent entering = some (r₁, out, .GoToNext))
    ∧ (∀ r₁ out status, RenderNode r node parent entering = some (r₁, out, status) →
        (status = .SkipChildren ↔ (entering = true ∧ node.type = .Heading))
        ∧ (status = .SkipChildren ∨ status = .GoToNext)) := by
  have hhead : node.type = .Heading →
      RenderNode r node parent true
        = some (r, renderHeading node r.Date r.Version, .SkipChildren) := by
    intro h
    simp [RenderNode, enterSwitch, h]
  have hother : ¬ (entering = true ∧ node.type = .Heading) →
      (entering = true → node.type = .Paragraph → parent ≠ none) →
      ∃ r₁ out, RenderNode r node parent entering = some (r₁, out, .GoToNext) := by
    intro hne hpar
    cases entering with
    | false =>
      exact ⟨_, _, by simp only [RenderNode, Bool.false_eq_true, if_false]; rfl⟩
    | true =>
      have hnh : node.type ≠ .Heading := fun h => hne ⟨rfl, h⟩
      obtain ⟨r₁, pre, he⟩ := enterSwitch_not_heading r node parent hnh (hpar rfl)
      exact ⟨_, _, by simp only [RenderNode, if_true, he]; rfl⟩
  refine ⟨fun h => ⟨hhead h, ?_⟩, hother, ?_⟩
  · have e := hhead h
    obtain ⟨t, l, n, cs⟩ := node
    simp only [renderWalk, walkNode, roffVisit_eq, e, List.nil_append]
  · intro r₁ out status hret
    by_cases hc : entering = true ∧ node.type = .Heading
    · obtain ⟨he, hh⟩ := hc
      subst he
      rw [hhead hh] at hret
      simp only [Option.some.injEq, Prod.mk.injEq] at hret
      obtain ⟨-, -, rfl⟩ := hret
      exact ⟨⟨fun _ => ⟨rfl, hh⟩, fun _ => rfl⟩, Or.inl rfl⟩
    · have hpar : entering = true → node.type = .Paragraph → parent ≠ none := by
        intro he hp hn
        subst he hn
        simp [RenderNode, enterSwitch, hp] at hret
      obtain ⟨r₂, out₂, e⟩ := hother hc hpar
      rw [e] at hret
      simp only [Option.some.injEq, Prod.mk.injEq] at hret
      obtain ⟨-, -, rfl⟩ := hret
      exact ⟨⟨fun h => (by cases h), fun h => (hc h).elim⟩, Or.inr rfl⟩

theorem skipChildren_only_on_heading_witness :
    (headingNode 2 "Name").type = .Heading
    ∧ RenderNode hubRenderer (headingNode 2 "Name") (some .Document) true
      = some (hubRenderer, bytes ".SH \"Name\"\n", .SkipChildren)
    ∧ renderWalk hubRenderer (some .Document) (headingNode 2 "Name")
      = some (hubRenderer, bytes ".SH \"Name\"\n")
    ∧ ∃ r₁ out, RenderNode hubRenderer (headingNode 2 "Name") (some .Document) false
      = some (r₁, out, .GoToNext) :=
  ⟨rfl,
    (((skipChildren_only_on_heading hubRenderer (headingNode 2 "Name") (some .Document) true).1
      rfl).1).trans (by decide),
    (((skipChildren_only_on_heading hubRenderer (headingNode 2 "Name") (some .Document) true).1
      rfl).2).trans (by decide),
    (skipChildren_only_on_heading hubRenderer (headingNode 2 "Name") (some .Document) false).2.1
      (by decide) (by decide)⟩

/-! ## Idempotence of the sanitizer -/

theorem htmlEscape_matchAt_none_of_ne {x : Byte} (t : List Byte) (hx : x ≠ 60) :
    htmlEscape.matchAt (x :: t) = none := by
  cases h : htmlEscape.matchAt (x :: t) with
  | none => rfl
  | some m =>
    obtain ⟨c, name, rest, -, -, e, -⟩ := htmlEscape_matchAt_some h
    simp only [List.cons_append, List.cons.injEq] at e
    exact (hx e.1).elim

theorem sanitizeInput_cons_of_ne {x : Byte} (t : List Byte) (hx : x ≠ 60) :
    sanitizeInput (x :: t) = x :: sanitizeInput t :=
  sanitizeInput_cons_of_none (htmlEscape_matchAt_none_of_ne t hx)

theorem isNameChar_ne_lt {x : Byte} (h : IsNameChar x) : x ≠ 60 := by
  intro e; subst e; exact not_isNameChar_lt h

/-- A stretch of name bytes is copied. -/
theorem sanitizeInput_name_append (name w : List Byte) (h : ∀ y ∈ name, IsNameChar y) :
    sanitizeInput (name ++ w) = name ++ sanitizeInput w := by
  induction name with
  | nil => rfl
  | cons y name ih =>
    have hy : IsNameChar y := h y (by simp)
    rw [List.cons_append, sanitizeInput_cons_of_ne _ (isNameChar_ne_lt hy),
      ih (fun z hz => h z (by simp [hz]))]
    rfl

/-- The first byte of the output is the first byte of the input, or the
backslash put before a `<`. -/
theorem sanitizeInput_head (t : List Byte) :
    (sanitizeInput t).head? = t.head?
      ∨ ((sanitizeInput t).head? = some 92 ∧ t.head? = some 60) := by
  cases t with
  | nil => left; rw [sanitizeInput_nil]
  | cons x t =>
    cases h : htmlEscape.matchAt (x :: t) with
    | none => left; rw [sanitizeInput_cons_of_none h]; rfl
    | some m =>
      right
      obtain ⟨c, name, rest, hc, hname, e, -⟩ := htmlEscape_matchAt_some h
      rw [e, sanitizeInput_of_matchAt rest hc hname]
      exact ⟨rfl, rfl⟩

/-- What follows a `<` is a letter, name bytes and a `>`. -/
theorem htmlEscape_matchAt_lt_some {t : List Byte} {m : Match}
    (h : htmlEscape.matchAt (60 :: t) = some m) :
    ∃ c name rest, IsLetter c ∧ (∀ y ∈ name, IsNameChar y) ∧ t = c :: name ++ 62 :: rest := by
  obtain ⟨c, name, rest, hc, hname, e, -⟩ := htmlEscape_matchAt_some h
  refine ⟨c, name, rest, hc, hname, ?_⟩
  simp only [List.cons_append, List.cons.injEq, true_and] at e
  simpa using e

theorem name_run_unique {p : Byte → Bool} {l₁ l₂ r₁ r₂ : List Byte} {x₁ x₂ : Byte}
    (h₁ : ∀ y ∈ l₁, p y = true) (h₂ : ∀ y ∈ l₂, p y = true) (hx₁ : p x₁ = false)
    (hx₂ : p x₂ = false) (e : l₁ ++ x₁ :: r₁ = l₂ ++ x₂ :: r₂) :
    l₁ = l₂ ∧ x₁ = x₂ ∧ r₁ = r₂ := by
  have a₁ := takeWhile_dropWhile_append_cons p x₁ r₁ hx₁ l₁ h₁
  have a₂ := takeWhile_dropWhile_append_cons p x₂ r₂ hx₂ l₂ h₂
  rw [e] at a₁
  have e₁ : l₁ = l₂ := a₁.1.symm.trans a₂.1
  have e₂ : x₁ :: r₁ = x₂ :: r₂ := a₁.2.symm.trans a₂.2
  simp only [List.cons.injEq] at e₂
  exact ⟨e₁, e₂.1, e₂.2⟩

/-- Where the pattern does not match at a `<` of the input, it does not match
at that `<` followed by the sanitized rest either. -/
theorem htmlEscape_matchAt_lt_sanitized {t : List Byte}
    (h : htmlEscape.matchAt (60 :: t) = none) :
    htmlEscape.matchAt (60 :: sanitizeInput t) = none := by
  cases h₂ : htmlEscape.matchAt (60 :: sanitizeInput t) with
  | none => rfl
  | some m =>
    exfalso
    obtain ⟨c, name, rest, hc, hname, e⟩ := htmlEscape_matchAt_lt_some h₂
    -- the name bytes at the start of `t` and what follows them
    have hsplit : t = t.takeWhile clsName.test ++ t.dropWhile clsName.test :=
      (List.takeWhile_append_dropWhile _ _).symm
    have hrun : ∀ y ∈ t.takeWhile clsName.test, IsNameChar y := fun y hy =>
      (clsName_test y).1 (List.mem_takeWhile_imp hy)
    have hs : sanitizeInput t
        = t.takeWhile clsName.test ++ sanitizeInput (t.dropWhile clsName.test) := by
      conv_lhs => rw [hsplit]
      exact sanitizeInput_name_append _ _ hrun
    have hcn : ∀ y ∈ c :: name, clsName.test y = true := by
      intro y hy
      rcases List.mem_cons.1 hy with rfl | hy
      · exact (clsName_test _).2 (isLetter_isNameChar hc)
      · exact (clsName_test y).2 (hname y hy)
    have hrun' : ∀ y ∈ t.takeWhile clsName.test, clsName.test y = true := fun y hy =>
      List.mem_takeWhile_imp hy
    cases hd : t.dropWhile clsName.test with
    | nil =>
      rw [hd, sanitizeInput_nil, List.append_nil] at hs
      have hmem : (62 : Byte) ∈ sanitizeInput t := by rw [e]; simp
      rw [hs] at hmem
      have := hrun 62 hmem
      revert this
      decide
    | cons z d =>
      have hz : clsName.test z = false := by
        have := List.head_dropWhile_not clsName.test t (by rw [hd]; simp)
        simpa [hd] using this
      rw [hd] at hs hsplit
      rcases sanitizeInput_head (z :: d) with hh | ⟨hh, hz60⟩
      · -- the output goes on with `z`
        cases hsz : sanitizeInput (z :: d) with
        | nil => rw [hsz] at hh; cases hh
        | cons z₁ d₁ =>
          rw [hsz] at hh hs
          simp only [List.head?_cons, Option.some.injEq] at hh
          subst hh
          have e₃ : (c :: name) ++ 62 :: rest = t.takeWhile clsName.test ++ z₁ :: d₁ := by
            rw [← hs, e]
          obtain ⟨e₄, e₅, -⟩ := name_run_unique hcn hrun' (by decide) hz e₃
          have ht : t = c :: name ++ 62 :: d := by
            rw [hsplit, ← e₄, ← e₅]
          have e60 : 60 :: c :: name ++ 62 :: d = 60 :: t := by
            rw [ht]; rfl
          have := htmlEscape_matchAt_tag d hc hname
          rw [e60, h] at this
          cases this
      · -- the output goes on with a backslash
        cases hsz : sanitizeInput (z :: d) with
        | nil => rw [hsz] at hh; cases hh
        | cons z₁ d₁ =>
          rw [hsz] at hh hs
          simp only [List.head?_cons, Option.some.injEq] at hh
          subst hh
          have e₃ : (c :: name) ++ 62 :: rest = t.takeWhile clsName.test ++ 92 :: d₁ := by
            rw [← hs, e]
          obtain ⟨-, e₅, -⟩ := name_run_unique hcn hrun' (by decide) (by decide) e₃
          revert e₅
          decide

theorem htmlEscape_matchAt_escaped_tag {c : Byte} {name : List Byte} (w : List Byte)
    (hc : IsLetter c) (hname : ∀ y ∈ name, IsNameChar y) :
    htmlEscape.matchAt (60 :: c :: name ++ 92 :: w) = none := by
  cases h : htmlEscape.matchAt (60 :: c :: name ++ 92 :: w) with
  | none => rfl
  | some m =>
    exfalso
    rw [List.cons_append] at h
    obtain ⟨c₂, name₂, rest₂, hc₂, hname₂, e⟩ := htmlEscape_matchAt_lt_some h
    have h₁ : ∀ y ∈ c :: name, clsName.test y = true := by
      intro y hy
      rcases List.mem_cons.1 hy with rfl | hy
      · exact (clsName_test _).2 (isLetter_isNameChar hc)
      · exact (clsName_test y).2 (hname y hy)
    have h₂ : ∀ y ∈ c₂ :: name₂, clsName.test y = true := by
      intro y hy
      rcases List.mem_cons.1 hy with rfl | hy
      · exact (clsName_test _).2 (isLetter_isNameChar hc₂)
      · exact (clsName_test y).2 (hname₂ y hy)
    obtain ⟨-, e₅, -⟩ := name_run_unique h₁ h₂ (by decide) (by decide) e
    revert e₅
    decide

/-- The rewritten tag `\<t\>` is copied by a second pass. -/
theorem sanitizeInput_escaped_tag {c : Byte} {name : List Byte} (w : List Byte)
    (hc : IsLetter c) (hname : ∀ y ∈ name, IsNameChar y) :
    sanitizeInput (92 :: 60 :: c :: name ++ [92, 62] ++ w)
      = 92 :: 60 :: c :: name ++ [92, 62] ++ sanitizeInput w := by
  have hcn : ∀ y ∈ c :: name, IsNameChar y := by
    intro y hy
    rcases List.mem_cons.1 hy with rfl | hy
    · exact isLetter_isNameChar hc
    · exact hname y hy
  have e₁ : 92 :: 60 :: c :: name ++ [92, 62] ++ w
      = 92 :: (60 :: c :: name ++ 92 :: (62 :: w)) := by simp
  have e₂ : 60 :: c :: name ++ 92 :: (62 :: w) = 60 :: ((c :: name) ++ 92 :: (62 :: w)) := rfl
  have hm : htmlEscape.matchAt (60 :: ((c :: name) ++ 92 :: (62 :: w))) = none :=
    htmlEscape_matchAt_escaped_tag (62 :: w) hc hname
  rw [e₁, sanitizeInput_cons_of_ne _ (by decide), e₂, sanitizeInput_cons_of_none hm,
    sanitizeInput_name_append _ _ hcn, sanitizeInput_cons_of_ne _ (by decide),
    sanitizeInput_cons_of_ne _ (by decide)]
  simp

theorem sanitizeInput_idem_aux :
    ∀ (n : Nat) (s : List Byte), s.length ≤ n →
      sanitizeInput (sanitizeInput s) = sanitizeInput s := by
  intro n
  induction n with
  | zero =>
    intro s hs
    have : s = [] := List.length_eq_zero.1 (Nat.le_zero.1 hs)
    subst this
    rw [sanitizeInput_nil, sanitizeInput_nil]
  | succ n ih =>
    intro s hs
    cases s with
    | nil => rw [sanitizeInput_nil, sanitizeInput_nil]
    | cons x t =>
      have ht : t.length ≤ n := by simpa using hs
      cases hm : htmlEscape.matchAt (x :: t) with
      | none =>
        rw [sanitizeInput_cons_of_none hm]
        by_cases hx : x = 60
        · subst hx
          rw [sanitizeInput_cons_of_none (htmlEscape_matchAt_lt_sanitized hm), ih t ht]
        · rw [sanitizeInput_cons_of_ne _ hx, ih t ht]
      | some m =>
        obtain ⟨c, name, rest, hc, hname, e, -⟩ := htmlEscape_matchAt_some hm
        have hrest : rest.length ≤ n := by
          have := congrArg List.length e
          simp at this
          omega
        rw [e, sanitizeInput_of_matchAt rest hc hname, sanitizeInput_escaped_tag _ hc hname,
          ih rest hrest]

theorem sanitizeInput_idem (s : List Byte) : sanitizeInput (sanitizeInput s) = sanitizeInput s :=
  sanitizeInput_idem_aux s.length s (Nat.le_refl _)

/-- The sanitizer never shortens its input. -/
theorem sanitizeInput_length_ge :
    ∀ (n : Nat) (s : List Byte), s.length ≤ n → s.length ≤ (sanitizeInput s).length := by
  intro n
  induction n with
  | zero =>
    intro s hs
    have : s = [] := List.length_eq_zero.1 (Nat.le_zero.1 hs)
    subst this
    simp
  | succ n ih =>
    intro s hs
    cases s with
    | nil => simp
    | cons x t =>
      have ht : t.length ≤ n := by simpa using hs
      cases hm : htmlEscape.matchAt (x :: t) with
      | none =>
        rw [sanitizeInput_cons_of_none hm]
        have := ih t ht
        simp only [List.length_cons]
        omega
      | some m =>
        obtain ⟨c, name, rest, hc, hname, e, -⟩ := htmlEscape_matchAt_some hm
        have hlen := congrArg List.length e
        have hrest : rest.length ≤ n := by
          simp at hlen
          omega
        have := ih rest hrest
        rw [e, sanitizeInput_of_matchAt rest hc hname]
        simp only [List.length_cons, List.length_append, List.length_nil]
        omega

/-- C20: `sanitizeInput` is idempotent, and its output never holds a bare
tag (`<`, a letter, zero or more letters, digits, underscores or hyphens,
`>`). -/
theorem sanitizeInput_idempotent (s : List Byte) :
    sanitizeInput (sanitizeInput s) = sanitizeInput s ∧ ¬ HasBareTag (sanitizeInput s) := by
  refine ⟨sanitizeInput_idem s, ?_⟩
  rintro ⟨u, t, v, ht, e⟩
  have h₁ := sanitizeInput_idem s
  rw [e, sanitizeInput_at_bare_tag t ht u v] at h₁
  have h₂ := congrArg List.length h₁
  have hu := sanitizeInput_length_ge u.length u (Nat.le_refl _)
  have hv := sanitizeInput_length_ge v.length v (Nat.le_refl _)
  simp only [List.length_append, List.length_cons, List.length_nil] at h₂
  omega

end Md2roff
